import Mathlib

/-!
Verification of the cute-computer repository against its specification.

The definitions below are shallow embeddings of the program's source:

* `CC.Path` — the Go path-confined file API (`src/container_src/main.go`),
  in particular `filepath.Clean` / `filepath.Join` (lexical path cleaning as
  in Go's standard library) and `validateAndResolvePath`.
* `CC.S3` — the chunked blob store durable object (`src/worker/s3.ts`).
* `CC.Logs` — the log store durable object (the `Logs` class).
* `CC.Computers` — the tenant registry (`src/worker/computers.ts`).

Bytes are modelled as `Nat`, byte strings as `List Nat`; machine strings as
`String` (with internals over `List Char`).  Nondeterministic inputs of the
code (MD5 digests, random UUIDs, clock readings) are passed in as explicit
parameters.
-/

namespace CC

namespace Path

/-- Split a character list on `'/'` separators (no separator collapsing,
so `"a//b"` yields an empty middle component, and an empty input yields
one empty component) — the component view of a Go path string. -/
def splitSlash : List Char → List (List Char)
  | [] => [[]]
  | c :: rest =>
    if c = '/' then [] :: splitSlash rest
    else
      match splitSlash rest with
      | [] => [[c]]
      | g :: gs => (c :: g) :: gs

/-- Join components with `'/'` separators; inverse of `splitSlash` on
slash-free components. -/
def joinSlash : List (List Char) → List Char
  | [] => []
  | [x] => x
  | x :: xs => x ++ '/' :: joinSlash xs

/-- One element step of Go's `filepath.Clean` (unix): maintain a stack of
output components (head = most recent).  `""` and `"."` are dropped; `".."`
pops a poppable component, is dropped on a rooted path with nothing to pop,
and is kept on a relative path with nothing to pop; anything else is pushed. -/
def cleanStep (rooted : Bool) (stack : List (List Char)) (elem : List Char) :
    List (List Char) :=
  if elem = [] ∨ elem = ['.'] then stack
  else if elem = ['.', '.'] then
    match stack with
    | top :: rest =>
      if top = ['.', '.'] then (if rooted then stack else elem :: stack) else rest
    | [] => if rooted then [] else [elem]
  else elem :: stack

/-- Go `filepath.Clean` on the character list of a unix path. -/
def cleanList (p : List Char) : List Char :=
  if p = [] then ['.']
  else
    let rooted : Bool := p.head? == some '/'
    let stack := (splitSlash p).foldl (cleanStep rooted) []
    let body := joinSlash stack.reverse
    if rooted then '/' :: body
    else if body = [] then ['.'] else body

/-- Go `strings.TrimPrefix(s, "/")`: drop one leading slash if present. -/
def trimPrefixSlash : List Char → List Char
  | '/' :: rest => rest
  | p => p

/-- `validateAndResolvePath` from `src/container_src/main.go`: clean the
client path, strip a leading slash, join onto `/home/cutie` (Go
`filepath.Join` = clean of the `'/'`-joined pieces), and reject the result
unless it is `/home/cutie` or has `/home/cutie/` as a prefix. -/
def validateAndResolvePath (relativePath : String) : Except String String :=
  let cleanPath := trimPrefixSlash (cleanList relativePath.data)
  let absPath := cleanList ("/home/cutie".data ++ '/' :: cleanPath)
  if ¬ ("/home/cutie/".data.isPrefixOf absPath) ∧ absPath ≠ "/home/cutie".data then
    .error "invalid path: must be within /home/cutie"
  else
    .ok ⟨absPath⟩

/-- A path component that a confined resolved path may contain: nonempty,
not a dot or dot-dot, and slash-free. -/
def GoodComp (g : List Char) : Prop :=
  g ≠ [] ∧ g ≠ ['.'] ∧ g ≠ ['.', '.'] ∧ '/' ∉ g

end Path

/-- Insert into a list sorted by the boolean relation `le` (used to model
SQL `ORDER BY`; all orderings used below are total on the rows queried). -/
def insertOrd (le : α → α → Bool) (a : α) : List α → List α
  | [] => [a]
  | b :: l => if le a b then a :: b :: l else b :: insertOrd le a l

/-- Insertion sort by a boolean relation. -/
def sortOrd (le : α → α → Bool) : List α → List α
  | [] => []
  | a :: l => insertOrd le a (sortOrd le l)

/-- Strict lexicographic order on character lists by code point — the
order SQLite's binary collation gives TEXT values (bytewise `memcmp`,
which on valid UTF-8 agrees with code-point order). -/
def charListLt : List Char → List Char → Bool
  | [], [] => false
  | [], _ :: _ => true
  | _ :: _, [] => false
  | a :: l, b :: m => if a = b then charListLt l m else decide (a < b)

namespace S3

/-- `CHUNK_SIZE` from `src/worker/s3.ts`: 1 MiB. -/
def CHUNK_SIZE : Nat := 1024 * 1024

/-- A row of the `objects` table (chunk 0 carries the metadata; later chunks
carry empty strings and a zero size). -/
structure ObjRow where
  bucket : String
  key : String
  chunkIndex : Nat
  size : Nat
  etag : String
  lastModified : String
  contentType : String
  data : List Nat
deriving DecidableEq

/-- A row of the `multipart_uploads` table. -/
structure UploadRow where
  uploadId : String
  bucket : String
  key : String
  createdAt : String
  contentType : String
deriving DecidableEq

/-- A row of the `multipart_parts` table. -/
structure PartRow where
  uploadId : String
  partNumber : Nat
  chunkIndex : Nat
  size : Nat
  etag : String
  data : List Nat
deriving DecidableEq

/-- The SQLite state of the `S3` durable object, each table as an
insertion-ordered list of rows. -/
structure S3State where
  objects : List ObjRow
  uploads : List UploadRow
  parts : List PartRow
deriving DecidableEq

/-- The parts of an HTTP response of the blob store that the claims speak
about: status, S3 error code (from the XML error document), `ETag` header /
result etag, `Content-Length` header, and the body bytes of data responses. -/
structure S3Response where
  status : Nat
  errorCode : Option String
  etag : Option String
  contentLength : Option Nat
  body : List Nat
deriving DecidableEq

/-- The chunk rows after chunk 0, mirroring the chunking loop of
`putObject`: chunk `idx` holds `data[offset, offset+CHUNK_SIZE)`, with
zero size and empty metadata strings. -/
def tailObjRows (bucket key : String) (data : List Nat) (offset idx : Nat) :
    List ObjRow :=
  if offset < data.length then
    ⟨bucket, key, idx, 0, "", "", "", (data.drop offset).take CHUNK_SIZE⟩ ::
      tailObjRows bucket key data (offset + CHUNK_SIZE) (idx + 1)
  else []
termination_by data.length - offset
decreasing_by
  have hc : 0 < CHUNK_SIZE := by norm_num [CHUNK_SIZE]
  omega

/-- All chunk rows `putObject` inserts for one object. -/
def objectRowsFor (bucket key : String) (data : List Nat)
    (etag lastModified contentType : String) : List ObjRow :=
  let size := data.length
  ⟨bucket, key, 0, size, etag, lastModified, contentType,
      if size = 0 then [] else data.take (min CHUNK_SIZE size)⟩ ::
    (if CHUNK_SIZE < size then tailObjRows bucket key data CHUNK_SIZE 1 else [])

/-- `putObject`: delete all previous chunk rows of `(bucket, key)`, then
insert the new chunk rows.  The MD5 etag of the body and the clock reading
are passed in (`md5etag`, `nowIso`). -/
def putObject (s : S3State) (bucket key : String) (data : List Nat)
    (contentType md5etag nowIso : String) : S3Response × S3State :=
  let kept := s.objects.filter fun r => ¬ (r.bucket = bucket ∧ r.key = key)
  (⟨200, none, some md5etag, none, []⟩,
   { s with objects :=
      kept ++ objectRowsFor bucket key data md5etag nowIso contentType })

/-- Ascending chunk-index order (`ORDER BY chunk_index`). -/
def chunkLe (a b : ObjRow) : Bool := a.chunkIndex ≤ b.chunkIndex

/-- `getObject` / `headObject`: look up the chunk-0 metadata (404 if absent),
and for a `GET` concatenate all chunks in chunk-index order into a buffer of
exactly `size` bytes (a concatenation longer than `size` would overflow the
buffer and be caught as an internal error). -/
def getObject (s : S3State) (bucket key : String) (headOnly : Bool) :
    S3Response :=
  let metas := s.objects.filter fun r =>
    r.bucket = bucket ∧ r.key = key ∧ r.chunkIndex = 0
  match metas with
  | [] => ⟨404, some "NoSuchKey", none, none, []⟩
  | row :: _ =>
    if headOnly then ⟨200, none, some row.etag, some row.size, []⟩
    else
      let chunks := sortOrd chunkLe
        (s.objects.filter fun r => r.bucket = bucket ∧ r.key = key)
      if chunks.isEmpty then ⟨200, none, some row.etag, some row.size, []⟩
      else
        let joined := (chunks.map (·.data)).flatten
        if row.size < joined.length then ⟨500, some "InternalError", none, none, []⟩
        else ⟨200, none, some row.etag, some row.size,
          joined ++ List.replicate (row.size - joined.length) 0⟩

/-- `deleteObject`: drop all chunk rows of the key; always 204. -/
def deleteObject (s : S3State) (bucket key : String) : S3Response × S3State :=
  (⟨204, none, none, none, []⟩,
   { s with objects :=
      s.objects.filter fun r => ¬ (r.bucket = bucket ∧ r.key = key) })

/-- Fold an ASCII upper-case letter to lower case (SQLite's `LIKE` folds
exactly the ASCII range by default). -/
def foldAsciiChar (c : Char) : Char :=
  if 'A' ≤ c ∧ c ≤ 'Z' then Char.ofNat (c.toNat + 32) else c

/-- SQLite `LIKE` pattern matching (default settings: ASCII
case-insensitive, `%` matches any sequence, `_` matches one character, no
escape character) — the semantics of the `key LIKE ?` filter that
`listObjectsV2` builds from `prefix + "%"`. -/
def likeMatch : List Char → List Char → Bool
  | [], s => s.isEmpty
  | c :: p, s =>
    if c = '%' then s.tails.any fun t => likeMatch p t
    else
      match s with
      | [] => false
      | d :: s' =>
        if c = '_' then likeMatch p s'
        else (foldAsciiChar c = foldAsciiChar d) && likeMatch p s'

/-- One `Contents` entry of the listing document. -/
structure ListEntry where
  key : String
  size : Nat
  etag : String
  lastModified : String
deriving DecidableEq

/-- The structured content of the `ListBucketResult` XML document. -/
structure ListResult where
  keyCount : Nat
  isTruncated : Bool
  nextContinuationToken : String
  contents : List ListEntry
deriving DecidableEq

/-- Ascending key order (`ORDER BY key`; SQLite compares TEXT bytewise). -/
def keyLe (a b : ObjRow) : Bool :=
  charListLt a.key.data b.key.data || a.key == b.key

/-- `listObjectsV2`: chunk-0 rows of the bucket, filtered with
`key LIKE '<pfx>%'` when a prefix is given and `key > token` when a
continuation token or start-after is given, ordered by key, fetched with
`LIMIT maxKeys+1` and trimmed to detect truncation; the continuation token
is the last returned key. -/
def listObjectsV2 (s : S3State) (bucket : String) (pfx : String)
    (maxKeys : Nat) (startAfter continuationToken : String) : ListResult :=
  let rows := s.objects.filter fun r => r.bucket = bucket ∧ r.chunkIndex = 0
  let rows := if pfx ≠ "" then
      rows.filter fun r => likeMatch (pfx.data ++ ['%']) r.key.data
    else rows
  let rows := if continuationToken ≠ "" ∨ startAfter ≠ "" then
      let tok := if continuationToken ≠ "" then continuationToken else startAfter
      rows.filter fun r => charListLt tok.data r.key.data
    else rows
  let rows := (sortOrd keyLe rows).take (maxKeys + 1)
  let isTruncated : Bool := maxKeys < rows.length
  let objects := rows.take maxKeys
  let nextTok := if isTruncated ∧ objects ≠ [] then
      ((objects.getLast?).map (·.key)).getD ""
    else ""
  ⟨objects.length, isTruncated, nextTok,
   objects.map fun r => ⟨r.key, r.size, r.etag, r.lastModified⟩⟩

/-- `createMultipartUpload`: record the upload row (the minted `uploadId`
and clock reading are passed in). -/
def createMultipartUpload (s : S3State) (bucket key contentType uploadId createdAt : String) :
    S3Response × S3State :=
  (⟨200, none, none, none, []⟩,
   { s with uploads := s.uploads ++ [⟨uploadId, bucket, key, createdAt, contentType⟩] })

/-- The chunk rows after chunk 0 of one uploaded part (same loop as
`tailObjRows`). -/
def tailPartRows (uploadId : String) (partNumber : Nat) (data : List Nat)
    (offset idx : Nat) : List PartRow :=
  if offset < data.length then
    ⟨uploadId, partNumber, idx, 0, "", (data.drop offset).take CHUNK_SIZE⟩ ::
      tailPartRows uploadId partNumber data (offset + CHUNK_SIZE) (idx + 1)
  else []
termination_by data.length - offset
decreasing_by
  have hc : 0 < CHUNK_SIZE := by norm_num [CHUNK_SIZE]
  omega

/-- All chunk rows `uploadPart` inserts for one part. -/
def partRowsFor (uploadId : String) (partNumber : Nat) (data : List Nat)
    (etag : String) : List PartRow :=
  let size := data.length
  ⟨uploadId, partNumber, 0, size, etag,
      if size = 0 then [] else data.take (min CHUNK_SIZE size)⟩ ::
    (if CHUNK_SIZE < size then tailPartRows uploadId partNumber data CHUNK_SIZE 1 else [])

/-- `uploadPart`: delete any prior rows of `(uploadId, partNumber)` and
insert the fresh chunk rows; no check that the upload exists.  The `bucket`
and `key` route segments are accepted but unused, as in the source. -/
def uploadPart (s : S3State) (_bucket _key uploadId : String)
    (partNumber : Nat) (data : List Nat) (md5etag : String) :
    S3Response × S3State :=
  let kept := s.parts.filter fun r =>
    ¬ (r.uploadId = uploadId ∧ r.partNumber = partNumber)
  (⟨200, none, some md5etag, none, []⟩,
   { s with parts := kept ++ partRowsFor uploadId partNumber data md5etag })

/-- Ascending part-number order (`ORDER BY part_number`). -/
def partLe (a b : PartRow) : Bool := a.partNumber ≤ b.partNumber

/-- Ascending chunk-index order on part rows (`ORDER BY chunk_index`). -/
def partChunkLe (a b : PartRow) : Bool := a.chunkIndex ≤ b.chunkIndex

/-- The object rows `completeMultipartUpload` inserts: the collected chunk
data re-indexed from 0, with the metadata (total size, fresh etag) on the
first row only. -/
def completeRows (bucket key : String) (totalSize : Nat)
    (etag lastModified contentType : String) :
    List (List Nat) → Nat → List ObjRow
  | [], _ => []
  | d :: ds, i =>
    (if i = 0 then
        (⟨bucket, key, i, totalSize, etag, lastModified, contentType, d⟩ : ObjRow)
      else ⟨bucket, key, i, 0, "", "", "", d⟩) ::
      completeRows bucket key totalSize etag lastModified contentType ds (i + 1)

/-- `completeMultipartUpload`: 404 `NoSuchUpload` if no upload row, 400
`InvalidPart` if the upload has no parts; otherwise replace the object's
chunk rows with the parts' chunk data in (part number, chunk index) order
under a freshly minted etag `uuid + "-" + partCount`, and delete all part
and upload rows. -/
def completeMultipartUpload (s : S3State) (bucket key uploadId : String)
    (uuidNoDash nowIso : String) : S3Response × S3State :=
  match s.uploads.filter fun u => u.uploadId = uploadId with
  | [] => (⟨404, some "NoSuchUpload", none, none, []⟩, s)
  | u :: _ =>
    let contentType := u.contentType
    let partMetas := sortOrd partLe
      (s.parts.filter fun r => r.uploadId = uploadId ∧ r.chunkIndex = 0)
    if partMetas.isEmpty then (⟨400, some "InvalidPart", none, none, []⟩, s)
    else
      let totalSize := (partMetas.map (·.size)).sum
      let keptObjects := s.objects.filter fun r =>
        ¬ (r.bucket = bucket ∧ r.key = key)
      let etag := uuidNoDash ++ "-" ++ toString partMetas.length
      let chunkData := (partMetas.map fun p =>
        (sortOrd partChunkLe (s.parts.filter fun r =>
          r.uploadId = uploadId ∧ r.partNumber = p.partNumber)).map (·.data)).flatten
      (⟨200, none, some etag, none, []⟩,
       { objects := keptObjects ++
           completeRows bucket key totalSize etag nowIso contentType chunkData 0,
         uploads := s.uploads.filter fun u2 => ¬ (u2.uploadId = uploadId),
         parts := s.parts.filter fun r => ¬ (r.uploadId = uploadId) })

/-- `abortMultipartUpload`: delete all part and upload rows; 204 always. -/
def abortMultipartUpload (s : S3State) (uploadId : String) :
    S3Response × S3State :=
  (⟨204, none, none, none, []⟩,
   { s with parts := s.parts.filter fun r => ¬ (r.uploadId = uploadId),
            uploads := s.uploads.filter fun u => ¬ (u.uploadId = uploadId) })

end S3

namespace Logs

/-- A row of the `logs` table: the text and the split nanosecond timestamp
(`ts_sec` whole seconds, `ts_nsec` sub-second remainder). -/
structure LogRow where
  log : String
  tsSec : Nat
  tsNsec : Nat
deriving DecidableEq

/-- The SQLite state of the `Logs` durable object (the FTS index is kept in
lockstep with `rows` by triggers, so it is not separate state). -/
structure LogsState where
  rows : List LogRow
deriving DecidableEq

/-- One element of the list `getLogs` returns: the row fields plus the
`highlighted_log` column. -/
structure LogOut where
  log : String
  tsSec : Nat
  tsNsec : Nat
  highlightedLog : String
deriving DecidableEq

/-- `writeLogs`: append each entry, splitting its decimal nanosecond
timestamp into seconds and remainder nanoseconds. -/
def writeLogs (s : LogsState) (entries : List (String × Nat)) : LogsState :=
  { rows := s.rows ++ entries.map fun e =>
      ⟨e.1, e.2 / 1000000000, e.2 % 1000000000⟩ }

/-- `ORDER BY ts_sec DESC, ts_nsec DESC` as a boolean relation. -/
def tsDescLe (a b : LogRow) : Bool :=
  b.tsSec < a.tsSec || (b.tsSec = a.tsSec && b.tsNsec ≤ a.tsNsec)

/-- The time-window condition of both `getLogs` queries:
`ts_sec >= beforeSec - 604800  AND  (ts_sec < beforeSec OR
(ts_sec = beforeSec AND ts_nsec < beforeNsec))`. -/
def inWindow (beforeSec beforeNsec : Int) (r : LogRow) : Prop :=
  beforeSec - 604800 ≤ (r.tsSec : Int) ∧
    ((r.tsSec : Int) < beforeSec ∨
      ((r.tsSec : Int) = beforeSec ∧ (r.tsNsec : Int) < beforeNsec))

instance (beforeSec beforeNsec : Int) (r : LogRow) :
    Decidable (inWindow beforeSec beforeNsec r) := by
  unfold inWindow; infer_instance

/-- ASCII case folding of a character list (the `trigram` tokenizer of FTS5
is case-insensitive; only the ASCII range matters for the claims). -/
def foldAscii (l : List Char) : List Char := l.map S3.foldAsciiChar

/-- The `logs_fts MATCH ?` condition for a plain (operator-free) query
string under the `trigram` tokenizer: the query is tokenized into its
overlapping 3-character substrings, which as a phrase match exactly the
case-folded substring occurrences of the whole query; a query shorter than
3 characters produces no token and matches nothing. -/
def ftsMatch (q text : String) : Prop :=
  3 ≤ q.length ∧ (foldAscii q.data).IsInfix (foldAscii text.data)

instance (q text : String) : Decidable (ftsMatch q text) := by
  unfold ftsMatch; infer_instance

/-- Start positions (in the case-folded text) of the occurrences of the
case-folded query. -/
def occStarts (pat text : List Char) : List Nat :=
  (List.range text.length).filter fun i => pat.isPrefixOf (text.drop i)

/-- Merge overlapping occurrence spans `[s, e)` (FTS5's `highlight` merges
overlapping phrase instances into one marked region). -/
def mergeSpansAux (L s e : Nat) : List Nat → List (Nat × Nat)
  | [] => [(s, e)]
  | i :: rest =>
    if i < e then mergeSpansAux L s (max e (i + L)) rest
    else (s, e) :: mergeSpansAux L i (i + L) rest

/-- Merged spans of a sorted list of occurrence starts, each of width `L`. -/
def mergeSpans (L : Nat) : List Nat → List (Nat × Nat)
  | [] => []
  | i :: rest => mergeSpansAux L i (i + L) rest

/-- Wrap each span of `text` in `<mark>...</mark>` (spans sorted and
disjoint; positions refer to the original text). -/
def applyMarks (text : List Char) (pos : Nat) : List (Nat × Nat) → List Char
  | [] => text.drop pos
  | (s, e) :: rest =>
    (text.drop pos).take (s - pos) ++ "<mark>".data ++
      ((text.drop s).take (e - s)) ++ "</mark>".data ++ applyMarks text e rest

/-- The `highlight(logs_fts, 0, '<mark>', '</mark>')` column for a plain
query: every (merged) case-folded occurrence of the query in the text is
wrapped in the markers. -/
def highlight (q text : String) : String :=
  let pat := foldAscii q.data
  ⟨applyMarks text.data 0
    (mergeSpans pat.length (occStarts pat (foldAscii text.data)))⟩

/-- The effective limit: a missing — or `0`, which is falsy in
JavaScript (`if (!ops.limit) ops.limit = 100`) — limit becomes 100. -/
def effLimit : Option Nat → Nat
  | none => 100
  | some l => if l = 0 then 100 else l

/-- `getLogs`: effective limit, upper bound from `before` or the clock,
7-day window on whole seconds, optional trigram search with highlighting,
ordered by timestamp descending. -/
def getLogs (s : LogsState) (before : Option Nat) (search : Option String)
    (limit : Option Nat) (nowMillis : Nat) : List LogOut :=
  let lim := effLimit limit
  let beforeNanos : Nat := match before with
    | some b => b
    | none => nowMillis * 1000000
  let beforeSec : Int := (beforeNanos / 1000000000 : Nat)
  let beforeNsec : Int := (beforeNanos % 1000000000 : Nat)
  match search with
  | some q =>
    if q ≠ "" then
      ((sortOrd tsDescLe (s.rows.filter fun r =>
          ftsMatch q r.log ∧ inWindow beforeSec beforeNsec r)).take lim).map
        fun r => ⟨r.log, r.tsSec, r.tsNsec, highlight q r.log⟩
    else
      ((sortOrd tsDescLe (s.rows.filter fun r =>
          inWindow beforeSec beforeNsec r)).take lim).map
        fun r => ⟨r.log, r.tsSec, r.tsNsec, r.log⟩
  | none =>
    ((sortOrd tsDescLe (s.rows.filter fun r =>
        inWindow beforeSec beforeNsec r)).take lim).map
      fun r => ⟨r.log, r.tsSec, r.tsNsec, r.log⟩

end Logs

namespace Computers

/-- JavaScript regex `\w`: ASCII letter, digit or underscore. -/
def isWordChar (c : Char) : Bool := c.isAlphanum || c = '_'

/-- JavaScript regex `\s` (the whitespace the claims exercise is ASCII). -/
def isSpaceChar (c : Char) : Bool := c.isWhitespace

/-- `String.prototype.trim`: strip whitespace from both ends. -/
def trimChars (l : List Char) : List Char :=
  ((l.dropWhile isSpaceChar).reverse.dropWhile isSpaceChar).reverse

/-- Replace each maximal run of characters satisfying `p` by the single
character `r` (JavaScript `replace(/p+/g, r)`); `inRun` records whether the
previous character belonged to a run. -/
def collapseRunsAux (p : Char → Bool) (r : Char) (inRun : Bool) :
    List Char → List Char
  | [] => []
  | c :: rest =>
    if p c then
      (if inRun then [] else [r]) ++ collapseRunsAux p r true rest
    else c :: collapseRunsAux p r false rest

/-- JavaScript `replace(/p+/g, r)`. -/
def collapseRuns (p : Char → Bool) (r : Char) (l : List Char) : List Char :=
  collapseRunsAux p r false l

/-- Strip a leading and trailing run of hyphens
(`replace(/^-+|-+$/g, "")`). -/
def trimHyphens (l : List Char) : List Char :=
  ((l.dropWhile (· = '-')).reverse.dropWhile (· = '-')).reverse

/-- `generateSlug` from `src/worker/computers.ts`: lower-case, trim,
remove characters outside `\w`, `\s` and `-`, replace whitespace runs by
single hyphens, collapse hyphen runs, strip edge hyphens. -/
def generateSlug (name : String) : String :=
  let l := name.data.map Char.toLower
  let l := trimChars l
  let l := l.filter fun c => isWordChar c || isSpaceChar c || c = '-'
  let l := collapseRuns isSpaceChar '-' l
  let l := collapseRuns (· = '-') '-' l
  ⟨trimHyphens l⟩

/-- The slug derivation exactly as the specification words it (for
comparison with `generateSlug`): lowercase, strip characters that are not
alphanumeric, whitespace or hyphen, collapse whitespace runs to single
hyphens, trim edge hyphens.  Unlike the code's `\w` class, this drops
underscores. -/
def slugSpec (name : String) : String :=
  let l := name.data.map Char.toLower
  let l := l.filter fun c => c.isAlphanum || isSpaceChar c || c = '-'
  let l := collapseRuns isSpaceChar '-' l
  ⟨trimHyphens l⟩

/-- A row of the `computers` table. -/
structure ComputerRow where
  id : Nat
  name : String
  slug : String
  createdAt : Nat
  secrets : String
deriving DecidableEq

/-- The SQLite state of the `Computers` durable object. -/
structure ComputersState where
  computers : List ComputerRow
deriving DecidableEq

/-- What `createComputer` resolves to, as far as the claims are concerned. -/
structure CreateResult where
  success : Bool
  slug : Option String
  error : Option String
deriving DecidableEq

/-- Does the `UNIQUE` constraint on `slug` reject this insert? -/
def slugTaken (s : ComputersState) (slug : String) : Bool :=
  s.computers.any fun c => c.slug = slug

/-- The slug tried at a given attempt count: the base slug, then
`base-1`, `base-2`, ... -/
def attemptSlug (baseSlug : String) (attempt : Nat) : String :=
  if attempt = 0 then baseSlug else baseSlug ++ "-" ++ toString attempt

/-- The retry loop of `createComputer`: with `remaining` attempts left and
the current attempt number `a`, the first attempt whose slug is free. -/
def firstFreeAttempt (s : ComputersState) (baseSlug : String) :
    Nat → Nat → Option Nat
  | 0, _ => none
  | remaining + 1, a =>
    if slugTaken s (attemptSlug baseSlug a) then
      firstFreeAttempt s baseSlug remaining (a + 1)
    else some a

/-- `createComputer`: validate the trimmed name, derive the base slug,
insert under the first free slug among `base`, `base-1`, …, `base-99`
(`maxAttempts = 100`), storing one fresh secret. -/
def createComputer (s : ComputersState) (displayName : String)
    (secret : String) (nowMs : Nat) : CreateResult × ComputersState :=
  if trimChars displayName.data = [] then
    (⟨false, none, some "Computer name is required"⟩, s)
  else
    let name : String := ⟨trimChars displayName.data⟩
    let baseSlug := generateSlug name
    if baseSlug = "" then
      (⟨false, none,
        some "Computer name must contain at least one alphanumeric character"⟩, s)
    else
      match firstFreeAttempt s baseSlug 100 0 with
      | none =>
        (⟨false, none, some "Could not generate unique slug after multiple attempts"⟩, s)
      | some a =>
        let slug := attemptSlug baseSlug a
        (⟨true, some slug, none⟩,
         { computers := s.computers ++
            [⟨s.computers.length + 1, name, slug, nowMs,
              "[\x22" ++ secret ++ "\x22]"⟩] })

end Computers

end CC

-- ===== definitions continue below; Path lemmas follow all definitions =====

namespace CC.Path

theorem splitSlash_ne_nil (l : List Char) : splitSlash l ≠ [] := by
  cases l with
  | nil => simp [splitSlash]
  | cons c rest =>
    simp only [splitSlash]
    split
    · simp
    · split <;> simp_all

theorem splitSlash_no_slash (l : List Char) :
    ∀ g ∈ splitSlash l, '/' ∉ g := by
  induction l with
  | nil => simp [splitSlash]
  | cons c rest ih =>
    intro g hg
    simp only [splitSlash] at hg
    split at hg
    · rw [List.mem_cons] at hg
      rcases hg with h | h
      · simp [h]
      · exact ih g h
    · rename_i hc
      rcases h : splitSlash rest with _ | ⟨g0, gs⟩
      · exact absurd h (splitSlash_ne_nil rest)
      · rw [h, List.mem_cons] at hg
        rcases hg with h1 | h1
        · subst h1
          intro hmem
          rw [List.mem_cons] at hmem
          rcases hmem with h2 | h2
          · exact hc (by simpa using h2.symm)
          · exact ih g0 (h ▸ List.mem_cons_self _ _) h2
        · exact ih g (h ▸ List.mem_cons_of_mem _ h1)

theorem splitSlash_single (g : List Char) (hg : '/' ∉ g) : splitSlash g = [g] := by
  induction g with
  | nil => simp [splitSlash]
  | cons c g' ih =>
    have hc : ¬ (c = '/') := fun h => hg (h ▸ List.mem_cons_self _ _)
    have h' : '/' ∉ g' := fun h => hg (List.mem_cons_of_mem _ h)
    simp [splitSlash, hc, ih h']

theorem splitSlash_append (g rest : List Char) (r : List Char) (rs : List (List Char))
    (hg : '/' ∉ g) (hrest : splitSlash rest = r :: rs) :
    splitSlash (g ++ rest) = (g ++ r) :: rs := by
  induction g with
  | nil => simpa using hrest
  | cons c g' ih =>
    have hc : ¬ (c = '/') := fun h => hg (h ▸ List.mem_cons_self _ _)
    have h' : '/' ∉ g' := fun h => hg (List.mem_cons_of_mem _ h)
    simp only [List.cons_append, splitSlash, if_neg hc, List.append_eq, ih h']

theorem splitSlash_joinSlash (gs : List (List Char)) (hne : gs ≠ [])
    (hs : ∀ g ∈ gs, '/' ∉ g) : splitSlash (joinSlash gs) = gs := by
  induction gs with
  | nil => exact absurd rfl hne
  | cons g gs' ih =>
    cases gs' with
    | nil =>
      simp only [joinSlash]
      exact splitSlash_single g (hs g (List.mem_cons_self _ _))
    | cons g' gs'' =>
      have hrest : splitSlash ('/' :: joinSlash (g' :: gs'')) =
          [] :: (g' :: gs'') := by
        have := ih (by simp) (fun x hx => hs x (List.mem_cons_of_mem _ hx))
        simp [splitSlash, this]
      have := splitSlash_append g ('/' :: joinSlash (g' :: gs'')) [] (g' :: gs'')
        (hs g (List.mem_cons_self _ _)) hrest
      simpa [joinSlash] using this

theorem cleanStep_good (stack : List (List Char)) (elem : List Char)
    (hst : ∀ g ∈ stack, GoodComp g) (helem : '/' ∉ elem) :
    ∀ g ∈ cleanStep true stack elem, GoodComp g := by
  intro g hg
  by_cases h0 : elem = [] ∨ elem = ['.']
  · simp only [cleanStep, if_pos h0] at hg
    exact hst g hg
  by_cases h1 : elem = ['.', '.']
  · simp only [cleanStep, if_neg h0, if_pos h1] at hg
    cases stack with
    | nil => simp at hg
    | cons top rest =>
      by_cases h2 : top = ['.', '.']
      · exact absurd h2 (hst top (List.mem_cons_self _ _)).2.2.1
      · simp only [h2, if_false, reduceIte] at hg
        exact hst g (List.mem_cons_of_mem _ hg)
  · simp only [cleanStep, if_neg h0, if_neg h1] at hg
    rw [List.mem_cons] at hg
    rcases hg with h | h
    · subst h
      exact ⟨fun h => h0 (Or.inl h), fun h => h0 (Or.inr h), h1, helem⟩
    · exact hst g h

theorem foldl_cleanStep_good (elems : List (List Char)) (stack : List (List Char))
    (hst : ∀ g ∈ stack, GoodComp g) (hel : ∀ g ∈ elems, '/' ∉ g) :
    ∀ g ∈ elems.foldl (cleanStep true) stack, GoodComp g := by
  induction elems generalizing stack with
  | nil => simpa using hst
  | cons e es ih =>
    simp only [List.foldl_cons]
    exact ih (cleanStep true stack e)
      (cleanStep_good stack e hst (hel e (List.mem_cons_self _ _)))
      (fun g hg => hel g (List.mem_cons_of_mem _ hg))

theorem cleanList_rooted (p : List Char) (hp : p.head? = some '/') :
    ∃ gs : List (List Char), cleanList p = '/' :: joinSlash gs ∧
      ∀ g ∈ gs, GoodComp g := by
  have hne : p ≠ [] := by cases p <;> simp_all
  have hroot : (p.head? == some '/') = true := by simp [hp]
  refine ⟨((splitSlash p).foldl (cleanStep true) []).reverse, ?_, ?_⟩
  · simp [cleanList, hne, hroot]
  · intro g hg
    rw [List.mem_reverse] at hg
    exact foldl_cleanStep_good (splitSlash p) [] (by simp)
      (splitSlash_no_slash p) g hg

/-- For a rooted input, `cleanList` never returns a path containing `"."`,
`".."` or empty components after the leading slash. -/
theorem cleanList_rooted_components (p : List Char) (hp : p.head? = some '/')
    (hne : cleanList p ≠ ['/']) :
    (splitSlash (cleanList p)).head? = some [] ∧
      ∀ comp ∈ (splitSlash (cleanList p)).tail, GoodComp comp := by
  obtain ⟨gs, hcl, hgood⟩ := cleanList_rooted p hp
  have hgs : gs ≠ [] := by
    intro h
    subst h
    simp [joinSlash] at hcl
    exact hne hcl
  have hsplit : splitSlash (cleanList p) = [] :: gs := by
    rw [hcl]
    have : splitSlash ('/' :: joinSlash gs) = [] :: splitSlash (joinSlash gs) := by
      simp [splitSlash]
    rw [this, splitSlash_joinSlash gs hgs (fun g hg => (hgood g hg).2.2.2)]
  rw [hsplit]
  exact ⟨rfl, fun comp hc => hgood comp hc⟩

end CC.Path

namespace CC

theorem insertOrd_perm (le : α → α → Bool) (a : α) (l : List α) :
    (insertOrd le a l).Perm (a :: l) := by
  induction l with
  | nil => simp [insertOrd]
  | cons b l ih =>
    simp only [insertOrd]
    split
    · exact List.Perm.refl _
    · exact (ih.cons b).trans (List.Perm.swap a b l)

theorem sortOrd_perm (le : α → α → Bool) (l : List α) :
    (sortOrd le l).Perm l := by
  induction l with
  | nil => simp [sortOrd]
  | cons a l ih =>
    simp only [sortOrd]
    exact (insertOrd_perm le a (sortOrd le l)).trans (ih.cons a)

theorem mem_insertOrd (le : α → α → Bool) (a x : α) (l : List α) :
    x ∈ insertOrd le a l ↔ x = a ∨ x ∈ l := by
  rw [(insertOrd_perm le a l).mem_iff, List.mem_cons]

theorem mem_sortOrd (le : α → α → Bool) (x : α) (l : List α) :
    x ∈ sortOrd le l ↔ x ∈ l :=
  (sortOrd_perm le l).mem_iff

theorem insertOrd_pairwise (le : α → α → Bool)
    (htot : ∀ a b, le a b = true ∨ le b a = true)
    (htrans : ∀ a b c, le a b = true → le b c = true → le a c = true)
    (a : α) (l : List α) (h : l.Pairwise fun x y => le x y = true) :
    (insertOrd le a l).Pairwise fun x y => le x y = true := by
  induction l with
  | nil => simp [insertOrd]
  | cons b l ih =>
    rw [List.pairwise_cons] at h
    obtain ⟨hb, hl⟩ := h
    simp only [insertOrd]
    split
    · rename_i hab
      rw [List.pairwise_cons]
      refine ⟨?_, List.pairwise_cons.mpr ⟨hb, hl⟩⟩
      intro y hy
      rw [List.mem_cons] at hy
      rcases hy with h | h
      · exact h ▸ hab
      · exact htrans a b y hab (hb y h)
    · rename_i hab
      have hba : le b a = true := by
        rcases htot a b with h | h
        · exact absurd h hab
        · exact h
      rw [List.pairwise_cons]
      refine ⟨?_, ih hl⟩
      intro y hy
      rw [mem_insertOrd] at hy
      rcases hy with h | h
      · exact h ▸ hba
      · exact hb y h

theorem sortOrd_pairwise (le : α → α → Bool)
    (htot : ∀ a b, le a b = true ∨ le b a = true)
    (htrans : ∀ a b c, le a b = true → le b c = true → le a c = true)
    (l : List α) :
    (sortOrd le l).Pairwise fun x y => le x y = true := by
  induction l with
  | nil => simp [sortOrd]
  | cons a l ih =>
    simp only [sortOrd]
    exact insertOrd_pairwise le htot htrans a (sortOrd le l) ih

/-- Sorting a list whose adjacent elements are already ordered leaves it
unchanged. -/
theorem sortOrd_eq_self (le : α → α → Bool) (l : List α)
    (h : l.Chain' fun x y => le x y = true) : sortOrd le l = l := by
  induction l with
  | nil => rfl
  | cons a l ih =>
    simp only [sortOrd, ih h.tail]
    cases l with
    | nil => rfl
    | cons b m =>
      have hab : le a b = true := List.chain'_cons.mp h |>.1
      simp [insertOrd, hab]

end CC

namespace CC.S3

theorem tailObjRows_mem (bucket key : String) (data : List Nat) :
    ∀ offset idx, ∀ r ∈ tailObjRows bucket key data offset idx,
      r.bucket = bucket ∧ r.key = key ∧ idx ≤ r.chunkIndex := by
  intro offset idx
  induction offset, idx using tailObjRows.induct bucket key data with
  | case1 offset idx h ih =>
    intro r hr
    rw [tailObjRows, if_pos h, List.mem_cons] at hr
    rcases hr with h1 | h1
    · subst h1; exact ⟨rfl, rfl, le_refl _⟩
    · obtain ⟨hb, hk, hi⟩ := ih r h1
      exact ⟨hb, hk, by omega⟩
  | case2 offset idx h =>
    intro r hr
    rw [tailObjRows, if_neg h] at hr
    exact absurd hr (List.not_mem_nil r)

theorem tailObjRows_chain (bucket key : String) (data : List Nat) :
    ∀ offset idx, List.Chain' (fun x y : ObjRow => chunkLe x y = true)
      (tailObjRows bucket key data offset idx) := by
  intro offset idx
  induction offset, idx using tailObjRows.induct bucket key data with
  | case1 offset idx h ih =>
    rw [tailObjRows, if_pos h]
    rw [List.chain'_cons']
    refine ⟨?_, ih⟩
    intro y hy
    have hmem := List.mem_of_mem_head? hy
    have := (tailObjRows_mem bucket key data _ _ y hmem).2.2
    simp only [chunkLe, decide_eq_true_eq]
    omega
  | case2 offset idx h =>
    rw [tailObjRows, if_neg h]
    exact List.chain'_nil

theorem tailObjRows_flatten (bucket key : String) (data : List Nat) :
    ∀ offset idx,
      ((tailObjRows bucket key data offset idx).map (·.data)).flatten =
        data.drop offset := by
  intro offset idx
  induction offset, idx using tailObjRows.induct bucket key data with
  | case1 offset idx h ih =>
    rw [tailObjRows, if_pos h, List.map_cons, List.flatten_cons, ih]
    have hdd : data.drop (offset + CHUNK_SIZE) =
        (data.drop offset).drop CHUNK_SIZE := by
      rw [List.drop_drop, Nat.add_comm]
    rw [hdd]
    exact List.take_append_drop _ _
  | case2 offset idx h =>
    rw [tailObjRows, if_neg h]
    simp only [List.map_nil, List.flatten_nil]
    rw [List.drop_eq_nil_of_le (by omega)]

/-- All chunk rows of one object carry its bucket and key. -/
theorem objectRowsFor_fields (bucket key : String) (data : List Nat)
    (etag lastModified contentType : String) :
    ∀ r ∈ objectRowsFor bucket key data etag lastModified contentType,
      r.bucket = bucket ∧ r.key = key := by
  intro r hr
  simp only [objectRowsFor, List.mem_cons] at hr
  rcases hr with h | h
  · subst h; exact ⟨rfl, rfl⟩
  · split at h
    · obtain ⟨hb, hk, _⟩ := tailObjRows_mem bucket key data _ _ r h
      exact ⟨hb, hk⟩
    · exact absurd h (List.not_mem_nil r)

/-- Only the first chunk row has chunk index 0. -/
theorem objectRowsFor_tail_pos (bucket key : String) (data : List Nat) :
    ∀ r ∈ (if CHUNK_SIZE < data.length then
        tailObjRows bucket key data CHUNK_SIZE 1 else []),
      1 ≤ r.chunkIndex := by
  intro r hr
  split at hr
  · exact (tailObjRows_mem bucket key data _ _ r hr).2.2
  · exact absurd hr (List.not_mem_nil r)

/-- The chunk rows of one object are already in ascending chunk order. -/
theorem objectRowsFor_chain (bucket key : String) (data : List Nat)
    (etag lastModified contentType : String) :
    List.Chain' (fun x y : ObjRow => chunkLe x y = true)
      (objectRowsFor bucket key data etag lastModified contentType) := by
  simp only [objectRowsFor]
  rw [List.chain'_cons']
  constructor
  · intro y hy
    have hmem := List.mem_of_mem_head? hy
    have := objectRowsFor_tail_pos bucket key data y hmem
    simp only [chunkLe, decide_eq_true_eq]
    omega
  · split
    · exact tailObjRows_chain bucket key data _ _
    · exact List.chain'_nil

/-- Concatenating the chunk data of one object's rows gives back the
payload. -/
theorem objectRowsFor_flatten (bucket key : String) (data : List Nat)
    (etag lastModified contentType : String) :
    ((objectRowsFor bucket key data etag lastModified contentType).map
        (·.data)).flatten = data := by
  simp only [objectRowsFor]
  by_cases h : CHUNK_SIZE < data.length
  · rw [if_pos h, List.map_cons, List.flatten_cons, tailObjRows_flatten]
    show (if data.length = 0 then [] else
        data.take (min CHUNK_SIZE data.length)) ++ data.drop CHUNK_SIZE = data
    have h0 : ¬ (data.length = 0) := by omega
    rw [if_neg h0]
    have hmin : min CHUNK_SIZE data.length = CHUNK_SIZE := by omega
    rw [hmin]
    exact List.take_append_drop _ _
  · rw [if_neg h, List.map_cons, List.map_nil, List.flatten_cons,
      List.flatten_nil, List.append_nil]
    show (if data.length = 0 then [] else
        data.take (min CHUNK_SIZE data.length)) = data
    by_cases h0 : data.length = 0
    · rw [if_pos h0, List.eq_nil_of_length_eq_zero h0]
    · rw [if_neg h0]
      have hmin : min CHUNK_SIZE data.length = data.length := by omega
      rw [hmin, List.take_length]

/-- After `putObject`, the rows of `(bucket, key)` are exactly the freshly
inserted chunk rows. -/
theorem putObject_filter_bk (s : S3State) (bucket key : String)
    (data : List Nat) (contentType md5etag nowIso : String) :
    (putObject s bucket key data contentType md5etag nowIso).2.objects.filter
        (fun r => r.bucket = bucket ∧ r.key = key) =
      objectRowsFor bucket key data md5etag nowIso contentType := by
  simp only [putObject]
  rw [List.filter_append]
  have h1 : (s.objects.filter fun r => ¬ (r.bucket = bucket ∧ r.key = key)).filter
      (fun r => r.bucket = bucket ∧ r.key = key) = [] := by
    rw [List.filter_eq_nil_iff]
    intro r hr
    rw [List.mem_filter] at hr
    have hneg := hr.2
    simp only [decide_eq_true_eq] at hneg
    simp only [decide_eq_true_eq]
    exact hneg
  rw [h1, List.nil_append]
  rw [List.filter_eq_self]
  intro r hr
  have hf := objectRowsFor_fields bucket key data md5etag nowIso contentType r hr
  simp [hf.1, hf.2]

/-- After `putObject`, exactly one chunk-0 row of `(bucket, key)` exists:
the fresh metadata row. -/
theorem putObject_metas (s : S3State) (bucket key : String)
    (data : List Nat) (contentType md5etag nowIso : String) :
    (putObject s bucket key data contentType md5etag nowIso).2.objects.filter
        (fun r => r.bucket = bucket ∧ r.key = key ∧ r.chunkIndex = 0) =
      [⟨bucket, key, 0, data.length, md5etag, nowIso, contentType,
        if data.length = 0 then [] else
          data.take (min CHUNK_SIZE data.length)⟩] := by
  simp only [putObject]
  rw [List.filter_append]
  have h1 : (s.objects.filter fun r => ¬ (r.bucket = bucket ∧ r.key = key)).filter
      (fun r => r.bucket = bucket ∧ r.key = key ∧ r.chunkIndex = 0) = [] := by
    rw [List.filter_eq_nil_iff]
    intro r hr
    rw [List.mem_filter] at hr
    have hneg := hr.2
    simp only [decide_eq_true_eq] at hneg
    simp only [decide_eq_true_eq]
    intro hc
    exact hneg ⟨hc.1, hc.2.1⟩
  rw [h1, List.nil_append]
  simp only [objectRowsFor]
  rw [List.filter_cons_of_pos (by simp)]
  have h2 : (if CHUNK_SIZE < data.length then
      tailObjRows bucket key data CHUNK_SIZE 1 else []).filter
        (fun r => r.bucket = bucket ∧ r.key = key ∧ r.chunkIndex = 0) = [] := by
    rw [List.filter_eq_nil_iff]
    intro r hr
    have := objectRowsFor_tail_pos bucket key data r hr
    simp only [decide_eq_true_eq, not_and]
    intro _ _
    omega
  rw [h2]

/-- C1 as one equation: `Get` after `Put` returns status 200, the stored
etag, a `Content-Length` of exactly `data.length`, and exactly `data` as
the body — for every starting state, bucket, key and payload (empty,
single-chunk and multi-chunk alike). -/
theorem c1_put_get_roundtrip (s : S3State) (bucket key : String)
    (data : List Nat) (contentType md5etag nowIso : String) :
    getObject (putObject s bucket key data contentType md5etag nowIso).2
        bucket key false =
      ⟨200, none, some md5etag, some data.length, data⟩ := by
  simp only [getObject]
  rw [putObject_metas s bucket key data contentType md5etag nowIso]
  rw [putObject_filter_bk s bucket key data contentType md5etag nowIso]
  rw [sortOrd_eq_self _ _
    (objectRowsFor_chain bucket key data md5etag nowIso contentType)]
  simp only [objectRowsFor]
  rw [if_neg (by simp : ¬ ((⟨bucket, key, 0, data.length, md5etag, nowIso,
    contentType, if data.length = 0 then [] else
      data.take (min CHUNK_SIZE data.length)⟩ : ObjRow) ::
    (if CHUNK_SIZE < data.length then
      tailObjRows bucket key data CHUNK_SIZE 1 else [])).isEmpty = true)]
  have hj : (((⟨bucket, key, 0, data.length, md5etag, nowIso, contentType,
      if data.length = 0 then [] else
        data.take (min CHUNK_SIZE data.length)⟩ : ObjRow) ::
      (if CHUNK_SIZE < data.length then
        tailObjRows bucket key data CHUNK_SIZE 1 else [])).map
        (·.data)).flatten = data := by
    have := objectRowsFor_flatten bucket key data md5etag nowIso contentType
    simpa only [objectRowsFor] using this
  rw [hj]
  rw [if_neg (by omega : ¬ (data.length < data.length))]
  rw [Nat.sub_self, List.replicate_zero, List.append_nil]
  rfl

theorem tailPartRows_mem (uploadId : String) (partNumber : Nat) (data : List Nat) :
    ∀ offset idx, ∀ r ∈ tailPartRows uploadId partNumber data offset idx,
      r.uploadId = uploadId ∧ r.partNumber = partNumber ∧ idx ≤ r.chunkIndex := by
  intro offset idx
  induction offset, idx using tailPartRows.induct uploadId partNumber data with
  | case1 offset idx h ih =>
    intro r hr
    rw [tailPartRows, if_pos h, List.mem_cons] at hr
    rcases hr with h1 | h1
    · subst h1; exact ⟨rfl, rfl, le_refl _⟩
    · obtain ⟨hu, hn, hi⟩ := ih r h1
      exact ⟨hu, hn, by omega⟩
  | case2 offset idx h =>
    intro r hr
    rw [tailPartRows, if_neg h] at hr
    exact absurd hr (List.not_mem_nil r)

theorem tailPartRows_chain (uploadId : String) (partNumber : Nat) (data : List Nat) :
    ∀ offset idx, List.Chain' (fun x y : PartRow => partChunkLe x y = true)
      (tailPartRows uploadId partNumber data offset idx) := by
  intro offset idx
  induction offset, idx using tailPartRows.induct uploadId partNumber data with
  | case1 offset idx h ih =>
    rw [tailPartRows, if_pos h]
    rw [List.chain'_cons']
    refine ⟨?_, ih⟩
    intro y hy
    have hmem := List.mem_of_mem_head? hy
    have := (tailPartRows_mem uploadId partNumber data _ _ y hmem).2.2
    simp only [partChunkLe, decide_eq_true_eq]
    omega
  | case2 offset idx h =>
    rw [tailPartRows, if_neg h]
    exact List.chain'_nil

theorem tailPartRows_flatten (uploadId : String) (partNumber : Nat) (data : List Nat) :
    ∀ offset idx,
      ((tailPartRows uploadId partNumber data offset idx).map (·.data)).flatten =
        data.drop offset := by
  intro offset idx
  induction offset, idx using tailPartRows.induct uploadId partNumber data with
  | case1 offset idx h ih =>
    rw [tailPartRows, if_pos h, List.map_cons, List.flatten_cons, ih]
    have hdd : data.drop (offset + CHUNK_SIZE) =
        (data.drop offset).drop CHUNK_SIZE := by
      rw [List.drop_drop, Nat.add_comm]
    rw [hdd]
    exact List.take_append_drop _ _
  | case2 offset idx h =>
    rw [tailPartRows, if_neg h]
    simp only [List.map_nil, List.flatten_nil]
    rw [List.drop_eq_nil_of_le (by omega)]

theorem partRowsFor_fields (uploadId : String) (partNumber : Nat)
    (data : List Nat) (etag : String) :
    ∀ r ∈ partRowsFor uploadId partNumber data etag,
      r.uploadId = uploadId ∧ r.partNumber = partNumber := by
  intro r hr
  simp only [partRowsFor, List.mem_cons] at hr
  rcases hr with h | h
  · subst h; exact ⟨rfl, rfl⟩
  · split at h
    · obtain ⟨hu, hn, _⟩ := tailPartRows_mem uploadId partNumber data _ _ r h
      exact ⟨hu, hn⟩
    · exact absurd h (List.not_mem_nil r)

theorem partRowsFor_tail_pos (uploadId : String) (partNumber : Nat)
    (data : List Nat) :
    ∀ r ∈ (if CHUNK_SIZE < data.length then
        tailPartRows uploadId partNumber data CHUNK_SIZE 1 else []),
      1 ≤ r.chunkIndex := by
  intro r hr
  split at hr
  · exact (tailPartRows_mem uploadId partNumber data _ _ r hr).2.2
  · exact absurd hr (List.not_mem_nil r)

theorem partRowsFor_chain (uploadId : String) (partNumber : Nat)
    (data : List Nat) (etag : String) :
    List.Chain' (fun x y : PartRow => partChunkLe x y = true)
      (partRowsFor uploadId partNumber data etag) := by
  simp only [partRowsFor]
  rw [List.chain'_cons']
  constructor
  · intro y hy
    have hmem := List.mem_of_mem_head? hy
    have := partRowsFor_tail_pos uploadId partNumber data y hmem
    simp only [partChunkLe, decide_eq_true_eq]
    omega
  · split
    · exact tailPartRows_chain uploadId partNumber data _ _
    · exact List.chain'_nil

theorem partRowsFor_flatten (uploadId : String) (partNumber : Nat)
    (data : List Nat) (etag : String) :
    ((partRowsFor uploadId partNumber data etag).map (·.data)).flatten = data := by
  simp only [partRowsFor]
  by_cases h : CHUNK_SIZE < data.length
  · rw [if_pos h, List.map_cons, List.flatten_cons, tailPartRows_flatten]
    show (if data.length = 0 then [] else
        data.take (min CHUNK_SIZE data.length)) ++ data.drop CHUNK_SIZE = data
    have h0 : ¬ (data.length = 0) := by omega
    rw [if_neg h0]
    have hmin : min CHUNK_SIZE data.length = CHUNK_SIZE := by omega
    rw [hmin]
    exact List.take_append_drop _ _
  · rw [if_neg h, List.map_cons, List.map_nil, List.flatten_cons,
      List.flatten_nil, List.append_nil]
    show (if data.length = 0 then [] else
        data.take (min CHUNK_SIZE data.length)) = data
    by_cases h0 : data.length = 0
    · rw [if_pos h0, List.eq_nil_of_length_eq_zero h0]
    · rw [if_neg h0]
      have hmin : min CHUNK_SIZE data.length = data.length := by omega
      rw [hmin, List.take_length]

/-- C10: `UploadPart` never checks that the upload exists.  For every
state — including one in which `CreateMultipartUpload` was never called for
this `uploadId`, or in which the upload was aborted — it returns status 200
with an etag, stores the part's chunk rows, and does not touch the uploads
table. -/
theorem c10_uploadPart_no_upload_check (s : S3State)
    (bucket key uploadId : String) (partNumber : Nat) (data : List Nat)
    (md5etag : String) :
    (uploadPart s bucket key uploadId partNumber data md5etag).1 =
        ⟨200, none, some md5etag, none, []⟩ ∧
      (uploadPart s bucket key uploadId partNumber data md5etag).2.parts.filter
          (fun r => r.uploadId = uploadId ∧ r.partNumber = partNumber) =
        partRowsFor uploadId partNumber data md5etag ∧
      (uploadPart s bucket key uploadId partNumber data md5etag).2.uploads =
        s.uploads := by
  refine ⟨rfl, ?_, rfl⟩
  simp only [uploadPart]
  rw [List.filter_append]
  have h1 : (s.parts.filter fun r =>
      ¬ (r.uploadId = uploadId ∧ r.partNumber = partNumber)).filter
      (fun r => r.uploadId = uploadId ∧ r.partNumber = partNumber) = [] := by
    rw [List.filter_eq_nil_iff]
    intro r hr
    rw [List.mem_filter] at hr
    have hneg := hr.2
    simp only [decide_eq_true_eq] at hneg
    simp only [decide_eq_true_eq]
    exact hneg
  rw [h1, List.nil_append, List.filter_eq_self]
  intro r hr
  have hf := partRowsFor_fields uploadId partNumber data md5etag r hr
  simp [hf.1, hf.2]

/-- C9: `CompleteMultipartUpload` answers `NoSuchUpload` (404) when no
upload row exists for the `uploadId`, and `InvalidPart` (400) when the
upload exists but no part was uploaded; in both cases the whole state — in
particular the objects table, including any object already stored at
`(bucket, key)` — is left unchanged. -/
theorem c9_complete_error_cases (s : S3State)
    (bucket key uploadId uuid nowIso : String) :
    ((∀ u ∈ s.uploads, u.uploadId ≠ uploadId) →
      completeMultipartUpload s bucket key uploadId uuid nowIso =
        (⟨404, some "NoSuchUpload", none, none, []⟩, s)) ∧
      (∀ u ∈ s.uploads, u.uploadId = uploadId →
        (∀ p ∈ s.parts, p.uploadId = uploadId → p.chunkIndex ≠ 0) →
        completeMultipartUpload s bucket key uploadId uuid nowIso =
          (⟨400, some "InvalidPart", none, none, []⟩, s)) := by
  constructor
  · intro hno
    have hfil : s.uploads.filter (fun u => u.uploadId = uploadId) = [] := by
      rw [List.filter_eq_nil_iff]
      intro u hu
      simp only [decide_eq_true_eq]
      exact hno u hu
    simp only [completeMultipartUpload]
    rw [hfil]
  · intro u hu huid hnoparts
    have hfil : ∃ w rest, s.uploads.filter (fun w => w.uploadId = uploadId) =
        w :: rest := by
      rcases hcase : s.uploads.filter (fun w => w.uploadId = uploadId) with
        _ | ⟨w, rest⟩
      · exfalso
        have : u ∈ s.uploads.filter (fun w => w.uploadId = uploadId) := by
          rw [List.mem_filter]
          exact ⟨hu, by simpa using huid⟩
        rw [hcase] at this
        exact absurd this (List.not_mem_nil u)
      · exact ⟨w, rest, hcase⟩
    obtain ⟨w, rest, hfil⟩ := hfil
    have hparts : s.parts.filter
        (fun r => r.uploadId = uploadId ∧ r.chunkIndex = 0) = [] := by
      rw [List.filter_eq_nil_iff]
      intro p hp
      simp only [decide_eq_true_eq]
      intro hc
      exact hnoparts p hp hc.1 hc.2
    simp only [completeMultipartUpload]
    rw [hfil, hparts]
    rfl

/-- Splitting a conjunctive SQL `WHERE` into two filters. -/
theorem filter_decide_and {α : Type} (l : List α) (p q : α → Prop)
    [DecidablePred p] [DecidablePred q] :
    (l.filter fun a => p a ∧ q a) = (l.filter fun a => p a).filter
      (fun a => q a) := by
  rw [List.filter_filter]
  apply List.filter_congr
  intro a _
  simp [Bool.and_comm]

theorem completeRows_fields (bucket key : String) (totalSize : Nat)
    (etag lastModified contentType : String) (ds : List (List Nat)) :
    ∀ i, ∀ r ∈ completeRows bucket key totalSize etag lastModified
        contentType ds i,
      r.bucket = bucket ∧ r.key = key ∧ i ≤ r.chunkIndex := by
  induction ds with
  | nil =>
    intro i r hr
    exact absurd hr (List.not_mem_nil r)
  | cons d ds ih =>
    intro i r hr
    rw [completeRows, List.mem_cons] at hr
    rcases hr with h | h
    · by_cases hi : i = 0
      · rw [if_pos hi] at h
        subst h
        exact ⟨rfl, rfl, le_refl _⟩
      · rw [if_neg hi] at h
        subst h
        exact ⟨rfl, rfl, le_refl _⟩
    · obtain ⟨hb, hk, hle⟩ := ih (i + 1) r h
      exact ⟨hb, hk, by omega⟩

theorem completeRows_chain (bucket key : String) (totalSize : Nat)
    (etag lastModified contentType : String) (ds : List (List Nat)) :
    ∀ i, List.Chain' (fun x y : ObjRow => chunkLe x y = true)
      (completeRows bucket key totalSize etag lastModified contentType ds i) := by
  induction ds with
  | nil =>
    intro i
    exact List.chain'_nil
  | cons d ds ih =>
    intro i
    rw [completeRows, List.chain'_cons']
    refine ⟨?_, ih (i + 1)⟩
    intro y hy
    have hmem := List.mem_of_mem_head? hy
    have hle := (completeRows_fields bucket key totalSize etag lastModified
      contentType ds (i + 1) y hmem).2.2
    simp only [chunkLe]
    by_cases hi : i = 0 <;> simp only [hi, if_true, if_false, reduceIte] <;>
      simp only [decide_eq_true_eq] <;> omega

theorem completeRows_flatten (bucket key : String) (totalSize : Nat)
    (etag lastModified contentType : String) (ds : List (List Nat)) :
    ∀ i, ((completeRows bucket key totalSize etag lastModified contentType
        ds i).map (·.data)).flatten = ds.flatten := by
  induction ds with
  | nil =>
    intro i
    rfl
  | cons d ds ih =>
    intro i
    rw [completeRows, List.map_cons, List.flatten_cons, ih (i + 1),
      List.flatten_cons]
    congr 1
    by_cases hi : i = 0 <;> simp [hi]

/-- The chunk-0 rows of a list of uploaded parts, in part order: one
metadata row per part. -/
theorem groups_filter_chunk0 (uploadId : String)
    (parts : List (Nat × List Nat × String)) :
    ((parts.map fun pr => partRowsFor uploadId pr.1 pr.2.1 pr.2.2).flatten).filter
        (fun r => r.chunkIndex = 0) =
      parts.map fun pr =>
        (⟨uploadId, pr.1, 0, pr.2.1.length, pr.2.2,
          if pr.2.1.length = 0 then [] else
            pr.2.1.take (min CHUNK_SIZE pr.2.1.length)⟩ : PartRow) := by
  induction parts with
  | nil => rfl
  | cons pr rest ih =>
    have hg : (partRowsFor uploadId pr.1 pr.2.1 pr.2.2).filter
        (fun r => r.chunkIndex = 0) =
        [⟨uploadId, pr.1, 0, pr.2.1.length, pr.2.2,
          if pr.2.1.length = 0 then [] else
            pr.2.1.take (min CHUNK_SIZE pr.2.1.length)⟩] := by
      simp only [partRowsFor]
      rw [List.filter_cons_of_pos (by simp)]
      have h2 : (if CHUNK_SIZE < pr.2.1.length then
          tailPartRows uploadId pr.1 pr.2.1 CHUNK_SIZE 1 else []).filter
            (fun r => r.chunkIndex = 0) = [] := by
        rw [List.filter_eq_nil_iff]
        intro r hr
        have := partRowsFor_tail_pos uploadId pr.1 pr.2.1 r hr
        simp only [decide_eq_true_eq]
        omega
      rw [h2]
    rw [List.map_cons, List.flatten_cons, List.filter_append, hg, ih,
      List.map_cons, List.singleton_append]

/-- With pairwise distinct part numbers, filtering the parts' chunk rows by
one part number recovers exactly that part's chunk rows. -/
theorem groups_filter_partNumber (uploadId : String) :
    ∀ (parts : List (Nat × List Nat × String)),
      parts.Pairwise (fun a b => a.1 ≠ b.1) →
      ∀ p ∈ parts,
        ((parts.map fun pr =>
            partRowsFor uploadId pr.1 pr.2.1 pr.2.2).flatten).filter
            (fun r => r.partNumber = p.1) =
          partRowsFor uploadId p.1 p.2.1 p.2.2 := by
  intro parts
  induction parts with
  | nil =>
    intro _ p hp
    exact absurd hp (List.not_mem_nil p)
  | cons q rest ih =>
    intro hpair p hp
    rw [List.pairwise_cons] at hpair
    obtain ⟨hq, hrest⟩ := hpair
    rw [List.map_cons, List.flatten_cons, List.filter_append]
    rw [List.mem_cons] at hp
    rcases hp with h | h
    · subst h
      have hg : (partRowsFor uploadId p.1 p.2.1 p.2.2).filter
          (fun r => r.partNumber = p.1) =
          partRowsFor uploadId p.1 p.2.1 p.2.2 := by
        rw [List.filter_eq_self]
        intro r hr
        have := (partRowsFor_fields uploadId p.1 p.2.1 p.2.2 r hr).2
        simp [this]
      have hrestnil : ((rest.map fun pr =>
          partRowsFor uploadId pr.1 pr.2.1 pr.2.2).flatten).filter
          (fun r => r.partNumber = p.1) = [] := by
        rw [List.filter_eq_nil_iff]
        intro r hr
        rw [List.mem_flatten] at hr
        obtain ⟨l, hl, hrl⟩ := hr
        rw [List.mem_map] at hl
        obtain ⟨pr, hpr, rfl⟩ := hl
        have hpn := (partRowsFor_fields uploadId pr.1 pr.2.1 pr.2.2 r hrl).2
        simp only [decide_eq_true_eq, hpn]
        exact fun hh => (hq pr hpr) hh.symm
      rw [hg, hrestnil, List.append_nil]
    · have hgnil : (partRowsFor uploadId q.1 q.2.1 q.2.2).filter
          (fun r => r.partNumber = p.1) = [] := by
        rw [List.filter_eq_nil_iff]
        intro r hr
        have hpn := (partRowsFor_fields uploadId q.1 q.2.1 q.2.2 r hr).2
        simp only [decide_eq_true_eq, hpn]
        exact fun hh => (hq p h) hh
      rw [hgnil, List.nil_append]
      exact ih hrest p h

/-- Flattening twice can be done inside-out. -/
theorem flatten_flatten_eq {α : Type} (L : List (List (List α))) :
    L.flatten.flatten = (L.map List.flatten).flatten := by
  induction L with
  | nil => rfl
  | cons l L ih =>
    rw [List.flatten_cons, List.flatten_append, ih, List.map_cons,
      List.flatten_cons]

/-- Reading an object whose chunk rows were written by
`completeMultipartUpload` (old rows of the key deleted, `completeRows`
appended) returns the concatenated chunk data. -/
theorem getObject_kept_completeRows (s : S3State) (bucket key : String)
    (totalSize : Nat) (etag lastModified contentType : String)
    (d : List Nat) (ds : List (List Nat))
    (hts : totalSize = (d :: ds).flatten.length)
    (t : S3State)
    (ht : t.objects =
      s.objects.filter (fun r => ¬ (r.bucket = bucket ∧ r.key = key)) ++
        completeRows bucket key totalSize etag lastModified contentType
          (d :: ds) 0) :
    getObject t bucket key false =
      ⟨200, none, some etag, some totalSize, (d :: ds).flatten⟩ := by
  have hkept0 : (s.objects.filter fun r =>
      ¬ (r.bucket = bucket ∧ r.key = key)).filter
      (fun r => r.bucket = bucket ∧ r.key = key ∧ r.chunkIndex = 0) = [] := by
    rw [List.filter_eq_nil_iff]
    intro r hr
    rw [List.mem_filter] at hr
    have hneg := hr.2
    simp only [decide_eq_true_eq] at hneg
    simp only [decide_eq_true_eq]
    intro hc
    exact hneg ⟨hc.1, hc.2.1⟩
  have hkept1 : (s.objects.filter fun r =>
      ¬ (r.bucket = bucket ∧ r.key = key)).filter
      (fun r => r.bucket = bucket ∧ r.key = key) = [] := by
    rw [List.filter_eq_nil_iff]
    intro r hr
    rw [List.mem_filter] at hr
    have hneg := hr.2
    simp only [decide_eq_true_eq] at hneg
    simp only [decide_eq_true_eq]
    exact hneg
  have hrows : completeRows bucket key totalSize etag lastModified contentType
      (d :: ds) 0 =
      (⟨bucket, key, 0, totalSize, etag, lastModified, contentType, d⟩ : ObjRow) ::
        completeRows bucket key totalSize etag lastModified contentType ds 1 := by
    rw [completeRows, if_pos rfl]
  have hmetas : t.objects.filter
      (fun r => r.bucket = bucket ∧ r.key = key ∧ r.chunkIndex = 0) =
      [⟨bucket, key, 0, totalSize, etag, lastModified, contentType, d⟩] := by
    rw [ht, List.filter_append, hkept0, List.nil_append, hrows,
      List.filter_cons_of_pos (by simp)]
    have htail : (completeRows bucket key totalSize etag lastModified
        contentType ds 1).filter
        (fun r => r.bucket = bucket ∧ r.key = key ∧ r.chunkIndex = 0) = [] := by
      rw [List.filter_eq_nil_iff]
      intro r hr
      have := (completeRows_fields bucket key totalSize etag lastModified
        contentType ds 1 r hr).2.2
      simp only [decide_eq_true_eq]
      intro hc
      omega
    rw [htail]
  have hchunks : t.objects.filter (fun r => r.bucket = bucket ∧ r.key = key) =
      completeRows bucket key totalSize etag lastModified contentType
        (d :: ds) 0 := by
    rw [ht, List.filter_append, hkept1, List.nil_append, List.filter_eq_self]
    intro r hr
    have := completeRows_fields bucket key totalSize etag lastModified
      contentType (d :: ds) 0 r hr
    simp [this.1, this.2.1]
  have hj : (((⟨bucket, key, 0, totalSize, etag, lastModified, contentType,
      d⟩ : ObjRow) :: completeRows bucket key totalSize etag lastModified
        contentType ds 1).map (·.data)).flatten = (d :: ds).flatten := by
    have := completeRows_flatten bucket key totalSize etag lastModified
      contentType (d :: ds) 0
    rw [hrows] at this
    exact this
  simp only [getObject]
  rw [hmetas, hchunks,
    sortOrd_eq_self _ _ (completeRows_chain bucket key totalSize etag
      lastModified contentType (d :: ds) 0), hrows]
  subst hts
  simp only [List.isEmpty_cons, Bool.false_eq_true, if_false, hj,
    Nat.lt_irrefl, Nat.sub_self, List.replicate_zero, List.append_nil]

/-- C4: for an upload with parts `(n_i, d_i, e_i)` (at least one part,
part numbers strictly ascending), `CompleteMultipartUpload` succeeds and
mints the fresh etag `uuid ++ "-" ++ partCount`, and a subsequent `Get`
of `(bucket, key)` returns exactly the concatenation of the part payloads
in ascending part-number order — for any part count ≥ 1 and any part
sizes, including parts exceeding the chunk size. -/
theorem c4_complete_then_get (s : S3State)
    (bucket key uploadId uuid nowIso : String)
    (u : UploadRow) (urest : List UploadRow)
    (hup : s.uploads.filter (fun w => w.uploadId = uploadId) = u :: urest)
    (parts : List (Nat × List Nat × String))
    (hne : parts ≠ [])
    (hasc : List.Chain' (fun a b => a.1 < b.1) parts)
    (hparts : s.parts.filter (fun r => r.uploadId = uploadId) =
      (parts.map fun pr => partRowsFor uploadId pr.1 pr.2.1 pr.2.2).flatten) :
    (completeMultipartUpload s bucket key uploadId uuid nowIso).1.status = 200 ∧
      (completeMultipartUpload s bucket key uploadId uuid nowIso).1.etag =
        some (uuid ++ "-" ++ toString parts.length) ∧
      getObject (completeMultipartUpload s bucket key uploadId uuid nowIso).2
          bucket key false =
        ⟨200, none, some (uuid ++ "-" ++ toString parts.length),
          some ((parts.map fun pr => pr.2.1).flatten).length,
          (parts.map fun pr => pr.2.1).flatten⟩ := by
  have hpairne : parts.Pairwise fun a b => a.1 ≠ b.1 := by
    haveI : IsTrans (Nat × List Nat × String) (fun a b => a.1 < b.1) :=
      ⟨fun _ _ _ hab hbc => Nat.lt_trans hab hbc⟩
    exact (List.chain'_iff_pairwise.mp hasc).imp fun h => Nat.ne_of_lt h
  have hmetasList : sortOrd partLe (s.parts.filter fun r =>
      r.uploadId = uploadId ∧ r.chunkIndex = 0) =
      parts.map fun pr =>
        (⟨uploadId, pr.1, 0, pr.2.1.length, pr.2.2,
          if pr.2.1.length = 0 then [] else
            pr.2.1.take (min CHUNK_SIZE pr.2.1.length)⟩ : PartRow) := by
    rw [filter_decide_and, hparts, groups_filter_chunk0]
    apply sortOrd_eq_self
    rw [List.chain'_map]
    refine hasc.imp fun hab => ?_
    simp only [partLe, decide_eq_true_eq]
    omega
  have hchunkData : (parts.map fun pr =>
        (⟨uploadId, pr.1, 0, pr.2.1.length, pr.2.2,
          if pr.2.1.length = 0 then [] else
            pr.2.1.take (min CHUNK_SIZE pr.2.1.length)⟩ : PartRow)).map
        (fun p => (sortOrd partChunkLe (s.parts.filter fun r =>
          r.uploadId = uploadId ∧ r.partNumber = p.partNumber)).map (·.data)) =
      parts.map fun pr =>
        (partRowsFor uploadId pr.1 pr.2.1 pr.2.2).map (·.data) := by
    rw [List.map_map]
    apply List.map_congr_left
    intro pr hpr
    show (sortOrd partChunkLe (s.parts.filter fun r =>
        r.uploadId = uploadId ∧ r.partNumber = pr.1)).map (·.data) = _
    rw [filter_decide_and, hparts,
      groups_filter_partNumber uploadId parts hpairne pr hpr,
      sortOrd_eq_self _ _ (partRowsFor_chain uploadId pr.1 pr.2.1 pr.2.2)]
  have hflat : ((parts.map fun pr =>
        (partRowsFor uploadId pr.1 pr.2.1 pr.2.2).map (·.data)).flatten).flatten =
      (parts.map fun pr => pr.2.1).flatten := by
    rw [flatten_flatten_eq, List.map_map]
    congr 1
    apply List.map_congr_left
    intro pr _
    exact partRowsFor_flatten uploadId pr.1 pr.2.1 pr.2.2
  have hsize : (((parts.map fun pr =>
        (⟨uploadId, pr.1, 0, pr.2.1.length, pr.2.2,
          if pr.2.1.length = 0 then [] else
            pr.2.1.take (min CHUNK_SIZE pr.2.1.length)⟩ : PartRow)).map
          (·.size)).sum) = ((parts.map fun pr => pr.2.1).flatten).length := by
    rw [List.map_map, List.length_flatten, List.map_map]
    rfl
  have hcomp : completeMultipartUpload s bucket key uploadId uuid nowIso =
      (⟨200, none, some (uuid ++ "-" ++ toString parts.length), none, []⟩,
       { objects :=
          s.objects.filter (fun r => ¬ (r.bucket = bucket ∧ r.key = key)) ++
            completeRows bucket key
              ((parts.map fun pr => pr.2.1).flatten).length
              (uuid ++ "-" ++ toString parts.length) nowIso u.contentType
              ((parts.map fun pr =>
                (partRowsFor uploadId pr.1 pr.2.1 pr.2.2).map (·.data)).flatten)
              0,
         uploads := s.uploads.filter fun u2 => ¬ (u2.uploadId = uploadId),
         parts := s.parts.filter fun r => ¬ (r.uploadId = uploadId) }) := by
    simp only [completeMultipartUpload]
    rw [hup]
    simp only [hmetasList, hchunkData, hsize]
    have hnem : (parts.map fun pr =>
        (⟨uploadId, pr.1, 0, pr.2.1.length, pr.2.2,
          if pr.2.1.length = 0 then [] else
            pr.2.1.take (min CHUNK_SIZE pr.2.1.length)⟩ : PartRow)).isEmpty =
        false := by
      rcases parts with _ | ⟨pr0, rest0⟩
      · exact absurd rfl hne
      · rfl
    rw [hnem]
    simp only [Bool.false_eq_true, if_false, List.length_map]
  obtain ⟨d, ds, hcons⟩ : ∃ d ds, (parts.map fun pr =>
      (partRowsFor uploadId pr.1 pr.2.1 pr.2.2).map (·.data)).flatten =
      d :: ds := by
    rcases parts with _ | ⟨pr0, rest0⟩
    · exact absurd rfl hne
    · exact ⟨_, _, rfl⟩
  have hcomp2 : (completeMultipartUpload s bucket key uploadId uuid nowIso).2 =
      { objects :=
          s.objects.filter (fun r => ¬ (r.bucket = bucket ∧ r.key = key)) ++
            completeRows bucket key
              ((parts.map fun pr => pr.2.1).flatten).length
              (uuid ++ "-" ++ toString parts.length) nowIso u.contentType
              (d :: ds) 0,
        uploads := s.uploads.filter fun u2 => ¬ (u2.uploadId = uploadId),
        parts := s.parts.filter fun r => ¬ (r.uploadId = uploadId) } := by
    rw [hcomp, hcons]
  refine ⟨by rw [hcomp], by rw [hcomp], ?_⟩
  rw [hcomp2]
  have hts : ((parts.map fun pr => pr.2.1).flatten).length =
      ((d :: ds).flatten).length := by
    rw [← hcons, hflat]
  have hget := getObject_kept_completeRows s bucket key
    ((parts.map fun pr => pr.2.1).flatten).length
    (uuid ++ "-" ++ toString parts.length) nowIso u.contentType d ds hts
    { objects :=
        s.objects.filter (fun r => ¬ (r.bucket = bucket ∧ r.key = key)) ++
          completeRows bucket key
            ((parts.map fun pr => pr.2.1).flatten).length
            (uuid ++ "-" ++ toString parts.length) nowIso u.contentType
            (d :: ds) 0,
      uploads := s.uploads.filter fun u2 => ¬ (u2.uploadId = uploadId),
      parts := s.parts.filter fun r => ¬ (r.uploadId = uploadId) } rfl
  rw [hget, ← hcons, hflat]

/-- C4 (witness): a concrete flow — create an upload, upload part 1 with
bytes `[1, 2]` and part 2 with bytes `[3]`, complete, then `Get`: the body
is `[1, 2, 3]`, the size 3, and the etag the freshly minted `id-2`. -/
theorem c4_complete_then_get_witness :
    (completeMultipartUpload
        (uploadPart (uploadPart
            (createMultipartUpload ⟨[], [], []⟩ "b" "k" "ct" "u" "t0").2
            "b" "k" "u" 1 [1, 2] "e1").2
          "b" "k" "u" 2 [3] "e2").2
        "b" "k" "u" "id" "t2").1.status = 200 ∧
      (completeMultipartUpload
          (uploadPart (uploadPart
              (createMultipartUpload ⟨[], [], []⟩ "b" "k" "ct" "u" "t0").2
              "b" "k" "u" 1 [1, 2] "e1").2
            "b" "k" "u" 2 [3] "e2").2
          "b" "k" "u" "id" "t2").1.etag = some "id-2" ∧
      getObject (completeMultipartUpload
          (uploadPart (uploadPart
              (createMultipartUpload ⟨[], [], []⟩ "b" "k" "ct" "u" "t0").2
              "b" "k" "u" 1 [1, 2] "e1").2
            "b" "k" "u" 2 [3] "e2").2
          "b" "k" "u" "id" "t2").2 "b" "k" false =
        ⟨200, none, some "id-2", some 3, [1, 2, 3]⟩ := by
  have h := c4_complete_then_get
    (uploadPart (uploadPart
        (createMultipartUpload ⟨[], [], []⟩ "b" "k" "ct" "u" "t0").2
        "b" "k" "u" 1 [1, 2] "e1").2
      "b" "k" "u" 2 [3] "e2").2
    "b" "k" "u" "id" "t2" ⟨"u", "b", "k", "t0", "ct"⟩ [] (by decide)
    [(1, ([1, 2], "e1")), (2, ([3], "e2"))] (by decide)
    (List.chain'_cons.mpr ⟨by decide, List.chain'_singleton _⟩) (by decide)
  refine ⟨h.1, ?_, ?_⟩
  · rw [h.2.1]
    rfl
  · rw [h.2.2]
    rfl

/-- A lone `%` matches every string. -/
theorem likeMatch_percent (s : List Char) : likeMatch ['%'] s = true := by
  induction s with
  | nil => rfl
  | cons c s ih => simp [likeMatch] at ih ⊢

/-- For a pattern free of `%` and `_`, `LIKE 'pattern%'` is exactly an
ASCII-case-insensitive prefix match. -/
theorem likeMatch_plain_pfx (p : List Char) (hp : '%' ∉ p) (hu : '_' ∉ p) :
    ∀ s : List Char, likeMatch (p ++ ['%']) s =
      (p.map foldAsciiChar).isPrefixOf (s.map foldAsciiChar) := by
  induction p with
  | nil =>
    intro s
    rw [List.nil_append, likeMatch_percent]
    simp [List.isPrefixOf]
  | cons c p ih =>
    have hc1 : ¬ (c = '%') := fun h => hp (h ▸ List.mem_cons_self _ _)
    have hc2 : ¬ (c = '_') := fun h => hu (h ▸ List.mem_cons_self _ _)
    have hp' : '%' ∉ p := fun h => hp (List.mem_cons_of_mem _ h)
    have hu' : '_' ∉ p := fun h => hu (List.mem_cons_of_mem _ h)
    intro s
    cases s with
    | nil =>
      simp only [List.cons_append, likeMatch, if_neg hc1, List.map_cons,
        List.map_nil]
      rfl
    | cons d s' =>
      simp only [List.cons_append, likeMatch, if_neg hc1, if_neg hc2,
        List.map_cons, List.append_eq]
      rw [ih hp' hu' s']
      by_cases hfold : foldAsciiChar c = foldAsciiChar d
      · simp [List.isPrefixOf, hfold]
      · simp [List.isPrefixOf, hfold]

theorem charListLt_trans :
    ∀ l m n : List Char, charListLt l m = true → charListLt m n = true →
      charListLt l n = true := by
  intro l
  induction l with
  | nil =>
    intro m n h1 h2
    cases m with
    | nil => simp [charListLt] at h1
    | cons b m' =>
      cases n with
      | nil => simp [charListLt] at h2
      | cons c n' => simp [charListLt]
  | cons a l' ih =>
    intro m n h1 h2
    cases m with
    | nil => simp [charListLt] at h1
    | cons b m' =>
      cases n with
      | nil => simp [charListLt] at h2
      | cons c n' =>
        simp only [charListLt] at h1 h2 ⊢
        by_cases hab : a = b
        · subst hab
          rw [if_pos rfl] at h1
          by_cases hbc : a = c
          · subst hbc
            rw [if_pos rfl] at h2 ⊢
            exact ih m' n' h1 h2
          · rw [if_neg hbc] at h2 ⊢
            exact h2
        · rw [if_neg hab] at h1
          by_cases hbc : b = c
          · subst hbc
            rw [if_neg hab]
            exact h1
          · rw [if_neg hbc] at h2
            have hac : a < c := lt_trans (of_decide_eq_true h1)
              (of_decide_eq_true h2)
            rw [if_neg (ne_of_lt hac)]
            simpa using hac

theorem charListLt_total :
    ∀ l m : List Char, charListLt l m = true ∨ charListLt m l = true ∨ l = m := by
  intro l
  induction l with
  | nil =>
    intro m
    cases m with
    | nil => right; right; rfl
    | cons b m' => left; simp [charListLt]
  | cons a l' ih =>
    intro m
    cases m with
    | nil => right; left; simp [charListLt]
    | cons b m' =>
      by_cases hab : a = b
      · subst hab
        rcases ih m' with h | h | h
        · left; simp [charListLt, h]
        · right; left; simp [charListLt, h]
        · right; right; rw [h]
      · rcases lt_trichotomy a b with h | h | h
        · left
          simp only [charListLt, if_neg hab]
          simpa using h
        · exact absurd h hab
        · right; left
          simp only [charListLt, if_neg (Ne.symm hab)]
          simpa using h

theorem keyLe_total (a b : ObjRow) : keyLe a b = true ∨ keyLe b a = true := by
  rcases charListLt_total a.key.data b.key.data with h | h | h
  · left; simp [keyLe, h]
  · right; simp [keyLe, h]
  · left
    have : a.key = b.key := String.ext h
    simp [keyLe, this]

theorem keyLe_trans (a b c : ObjRow) (h1 : keyLe a b = true)
    (h2 : keyLe b c = true) : keyLe a c = true := by
  simp only [keyLe, Bool.or_eq_true, beq_iff_eq] at h1 h2 ⊢
  rcases h1 with h1 | h1
  · rcases h2 with h2 | h2
    · exact Or.inl (charListLt_trans _ _ _ h1 h2)
    · rw [← h2]
      exact Or.inl h1
  · rcases h2 with h2 | h2
    · rw [h1]
      exact Or.inl h2
    · exact Or.inr (h1.trans h2)

/-- C5 (counterexample): the prefix filter is not a simple string-prefix
match.  The SQL filter is `key LIKE '<prefix>%'`, in which an underscore in
the client's prefix acts as a single-character wildcard: listing with
prefix `"f_o/"` returns the key `"foo/a"` although `"f_o/"` is not a string
prefix of it. -/
theorem c5_like_is_not_string_prefix :
    ((listObjectsV2 (putObject ⟨[], [], []⟩ "b" "foo/a" [1] "ct" "e" "t").2
        "b" "f_o/" 1000 "" "").contents.map fun e => e.key) = ["foo/a"] ∧
      "f_o/".data.isPrefixOf "foo/a".data = false := by
  constructor
  · rfl
  · rfl

/-- The listing call with no continuation state, written out: the chunk-0
rows of the bucket are filtered with `LIKE '<pfx>%'`, sorted by key, cut at
`maxKeys + 1` and trimmed to `maxKeys`. -/
theorem listObjectsV2_eq (s : S3State) (bucket pfx : String) (maxKeys : Nat) :
    listObjectsV2 s bucket pfx maxKeys "" "" =
      ⟨(((sortOrd keyLe ((s.objects.filter fun r =>
            r.bucket = bucket ∧ r.chunkIndex = 0).filter fun r =>
              likeMatch (pfx.data ++ ['%']) r.key.data)).take
          (maxKeys + 1)).take maxKeys).length,
        decide (maxKeys < ((sortOrd keyLe ((s.objects.filter fun r =>
            r.bucket = bucket ∧ r.chunkIndex = 0).filter fun r =>
              likeMatch (pfx.data ++ ['%']) r.key.data)).take
          (maxKeys + 1)).length),
        (if decide (maxKeys < ((sortOrd keyLe ((s.objects.filter fun r =>
              r.bucket = bucket ∧ r.chunkIndex = 0).filter fun r =>
                likeMatch (pfx.data ++ ['%']) r.key.data)).take
            (maxKeys + 1)).length) = true ∧
            (((sortOrd keyLe ((s.objects.filter fun r =>
              r.bucket = bucket ∧ r.chunkIndex = 0).filter fun r =>
                likeMatch (pfx.data ++ ['%']) r.key.data)).take
            (maxKeys + 1)).take maxKeys) ≠ [] then
          (((((sortOrd keyLe ((s.objects.filter fun r =>
              r.bucket = bucket ∧ r.chunkIndex = 0).filter fun r =>
                likeMatch (pfx.data ++ ['%']) r.key.data)).take
            (maxKeys + 1)).take maxKeys).getLast?).map fun r => r.key).getD ""
        else ""),
        ((((sortOrd keyLe ((s.objects.filter fun r =>
            r.bucket = bucket ∧ r.chunkIndex = 0).filter fun r =>
              likeMatch (pfx.data ++ ['%']) r.key.data)).take
          (maxKeys + 1)).take maxKeys).map fun r =>
            ⟨r.key, r.size, r.etag, r.lastModified⟩)⟩ := by
  have hbr : (if pfx ≠ "" then
      (s.objects.filter fun r =>
        r.bucket = bucket ∧ r.chunkIndex = 0).filter
        (fun r => likeMatch (pfx.data ++ ['%']) r.key.data)
    else (s.objects.filter fun r => r.bucket = bucket ∧ r.chunkIndex = 0)) =
      (s.objects.filter fun r =>
        r.bucket = bucket ∧ r.chunkIndex = 0).filter
        (fun r => likeMatch (pfx.data ++ ['%']) r.key.data) := by
    by_cases hp : pfx = ""
    · subst hp
      rw [if_neg (by simp)]
      rw [Eq.comm, List.filter_eq_self]
      intro r _
      exact likeMatch_percent r.key.data
    · rw [if_pos hp]
  simp only [listObjectsV2]
  rw [if_neg (by decide : ¬ (("" : String) ≠ "" ∨ ("" : String) ≠ ""))]
  rw [hbr]

/-- C5 (amended): `List` returns exactly the chunk-0 rows of the bucket
whose key matches the prefix under SQLite `LIKE '<prefix>%'` semantics
(ASCII-case-insensitive, with `%`/`_` in the prefix acting as wildcards —
for a wildcard-free prefix this is a case-insensitive string-prefix match,
not a byte-exact one), ordered lexicographically by key, with truncation
detected by fetching `maxKeys + 1` rows and trimming, and the continuation
token equal to the last returned key. -/
theorem c5_list_like_order_truncation (s : S3State) (bucket pfx : String)
    (maxKeys : Nat) :
    ((listObjectsV2 s bucket pfx maxKeys "" "").isTruncated = true ↔
        maxKeys < (((s.objects.filter fun r =>
          r.bucket = bucket ∧ r.chunkIndex = 0).filter fun r =>
            likeMatch (pfx.data ++ ['%']) r.key.data)).length) ∧
      ((listObjectsV2 s bucket pfx maxKeys "" "").isTruncated = false →
        (((listObjectsV2 s bucket pfx maxKeys "" "").contents.map fun e =>
            e.key)).Perm
          ((((s.objects.filter fun r =>
            r.bucket = bucket ∧ r.chunkIndex = 0).filter fun r =>
              likeMatch (pfx.data ++ ['%']) r.key.data)).map fun r => r.key)) ∧
      List.Pairwise (fun e1 e2 : ListEntry =>
          charListLt e1.key.data e2.key.data = true ∨ e1.key = e2.key)
        (listObjectsV2 s bucket pfx maxKeys "" "").contents ∧
      ((listObjectsV2 s bucket pfx maxKeys "" "").isTruncated = true →
        (listObjectsV2 s bucket pfx maxKeys "" "").contents ≠ [] →
        (listObjectsV2 s bucket pfx maxKeys "" "").nextContinuationToken =
          ((((listObjectsV2 s bucket pfx maxKeys "" "").contents.getLast?).map
            fun e => e.key).getD "")) := by
  have hlen : (sortOrd keyLe ((s.objects.filter fun r =>
      r.bucket = bucket ∧ r.chunkIndex = 0).filter fun r =>
        likeMatch (pfx.data ++ ['%']) r.key.data)).length =
      ((s.objects.filter fun r =>
        r.bucket = bucket ∧ r.chunkIndex = 0).filter fun r =>
          likeMatch (pfx.data ++ ['%']) r.key.data).length :=
    (sortOrd_perm _ _).length_eq
  simp only [listObjectsV2_eq]
  refine ⟨?_, ?_, ?_, ?_⟩
  · simp only [decide_eq_true_eq, List.length_take, hlen]
    omega
  · intro hfalse
    simp only [decide_eq_false_iff_not, List.length_take] at hfalse
    have hsl : (sortOrd keyLe ((s.objects.filter fun r =>
        r.bucket = bucket ∧ r.chunkIndex = 0).filter fun r =>
          likeMatch (pfx.data ++ ['%']) r.key.data)).length ≤ maxKeys := by
      omega
    rw [List.take_of_length_le (by omega :
      (sortOrd keyLe ((s.objects.filter fun r =>
        r.bucket = bucket ∧ r.chunkIndex = 0).filter fun r =>
          likeMatch (pfx.data ++ ['%']) r.key.data)).length ≤ maxKeys + 1)]
    rw [List.take_of_length_le hsl, List.map_map]
    exact (sortOrd_perm keyLe _).map fun r => r.key
  · have hpw := sortOrd_pairwise keyLe keyLe_total keyLe_trans
      ((s.objects.filter fun r =>
        r.bucket = bucket ∧ r.chunkIndex = 0).filter fun r =>
          likeMatch (pfx.data ++ ['%']) r.key.data)
    have hpw1 : List.Pairwise (fun x y => keyLe x y = true)
        ((sortOrd keyLe ((s.objects.filter fun r =>
          r.bucket = bucket ∧ r.chunkIndex = 0).filter fun r =>
            likeMatch (pfx.data ++ ['%']) r.key.data)).take (maxKeys + 1)) :=
      List.Pairwise.sublist (List.take_sublist _ _) hpw
    have hpw2 : List.Pairwise (fun x y => keyLe x y = true)
        (((sortOrd keyLe ((s.objects.filter fun r =>
          r.bucket = bucket ∧ r.chunkIndex = 0).filter fun r =>
            likeMatch (pfx.data ++ ['%']) r.key.data)).take
          (maxKeys + 1)).take maxKeys) :=
      List.Pairwise.sublist (List.take_sublist _ _) hpw1
    rw [List.pairwise_map]
    refine hpw2.imp ?_
    intro a b hab
    simp only [keyLe, Bool.or_eq_true, beq_iff_eq] at hab
    exact hab
  · intro htr hne
    rw [if_pos ⟨htr, by simpa using hne⟩, List.getLast?_map]
    cases hlast : (((sortOrd keyLe ((s.objects.filter fun r =>
        r.bucket = bucket ∧ r.chunkIndex = 0).filter fun r =>
          likeMatch (pfx.data ++ ['%']) r.key.data)).take
        (maxKeys + 1)).take maxKeys).getLast? with
    | none => rfl
    | some r => rfl

/-- C5 (witness): the concrete key set `{"foo/a", "foo/b", "bar/c"}` —
`List(prefix = "foo/")` returns exactly `["foo/a", "foo/b"]`, untruncated
and with no continuation token, and the amended theorem applies at this
instance. -/
theorem c5_list_like_order_truncation_witness :
    ((listObjectsV2
        (putObject (putObject (putObject ⟨[], [], []⟩
            "b" "foo/a" [1] "ct" "e1" "t").2
          "b" "foo/b" [2] "ct" "e2" "t").2
          "b" "bar/c" [3] "ct" "e3" "t").2
        "b" "foo/" 1000 "" "").contents.map fun e => e.key) = ["foo/a", "foo/b"] ∧
      (listObjectsV2
        (putObject (putObject (putObject ⟨[], [], []⟩
            "b" "foo/a" [1] "ct" "e1" "t").2
          "b" "foo/b" [2] "ct" "e2" "t").2
          "b" "bar/c" [3] "ct" "e3" "t").2
        "b" "foo/" 1000 "" "").isTruncated = false ∧
      ((listObjectsV2
          (putObject (putObject (putObject ⟨[], [], []⟩
              "b" "foo/a" [1] "ct" "e1" "t").2
            "b" "foo/b" [2] "ct" "e2" "t").2
            "b" "bar/c" [3] "ct" "e3" "t").2
          "b" "foo/" 1000 "" "").isTruncated = false →
        (((listObjectsV2
          (putObject (putObject (putObject ⟨[], [], []⟩
              "b" "foo/a" [1] "ct" "e1" "t").2
            "b" "foo/b" [2] "ct" "e2" "t").2
            "b" "bar/c" [3] "ct" "e3" "t").2
          "b" "foo/" 1000 "" "").contents.map fun e => e.key)).Perm
          (((((putObject (putObject (putObject ⟨[], [], []⟩
              "b" "foo/a" [1] "ct" "e1" "t").2
            "b" "foo/b" [2] "ct" "e2" "t").2
            "b" "bar/c" [3] "ct" "e3" "t").2.objects.filter fun r =>
              r.bucket = "b" ∧ r.chunkIndex = 0).filter fun r =>
                likeMatch ("foo/".data ++ ['%']) r.key.data)).map fun r => r.key)) :=
  ⟨by rfl, by rfl,
   (c5_list_like_order_truncation
      (putObject (putObject (putObject ⟨[], [], []⟩
          "b" "foo/a" [1] "ct" "e1" "t").2
        "b" "foo/b" [2] "ct" "e2" "t").2
        "b" "bar/c" [3] "ct" "e3" "t").2
      "b" "foo/" 1000).2.1⟩

/-- C9 (witness): a concrete run of both error cases — completing an
unknown upload id on an empty store yields 404 `NoSuchUpload`, and
completing an upload that exists but has no parts yields 400 `InvalidPart`;
each leaves the state unchanged. -/
theorem c9_complete_error_cases_witness :
    completeMultipartUpload ⟨[], [], []⟩ "b" "k" "u" "id" "t" =
        (⟨404, some "NoSuchUpload", none, none, []⟩, ⟨[], [], []⟩) ∧
      completeMultipartUpload ⟨[], [⟨"u", "b", "k", "t0", "ct"⟩], []⟩
          "b" "k" "u" "id" "t" =
        (⟨400, some "InvalidPart", none, none, []⟩,
         ⟨[], [⟨"u", "b", "k", "t0", "ct"⟩], []⟩) :=
  ⟨(c9_complete_error_cases ⟨[], [], []⟩ "b" "k" "u" "id" "t").1 (by decide),
   (c9_complete_error_cases ⟨[], [⟨"u", "b", "k", "t0", "ct"⟩], []⟩
      "b" "k" "u" "id" "t").2 ⟨"u", "b", "k", "t0", "ct"⟩ (by decide)
      (by decide) (by decide)⟩

end CC.S3

namespace CC.Logs

open CC

theorem tsDescLe_total (a b : LogRow) : tsDescLe a b = true ∨ tsDescLe b a = true := by
  simp only [tsDescLe, Bool.or_eq_true, Bool.and_eq_true, decide_eq_true_eq]
  omega

theorem tsDescLe_trans (a b c : LogRow) (h1 : tsDescLe a b = true)
    (h2 : tsDescLe b c = true) : tsDescLe a c = true := by
  simp only [tsDescLe, Bool.or_eq_true, Bool.and_eq_true, decide_eq_true_eq]
    at h1 h2 ⊢
  omega

/-- The code's window condition, for rows with a sub-second remainder,
equals the amended claim's bounds: upper bound `before` at nanosecond
precision, lower bound computed on whole seconds
(`floor(before / 1e9) - 604800`). -/
theorem inWindow_iff (before : Nat) (r : LogRow) (h : r.tsNsec < 1000000000) :
    inWindow ((before / 1000000000 : Nat) : Int)
        ((before % 1000000000 : Nat) : Int) r ↔
      (before / 1000000000 ≤ 604800 + r.tsSec ∧
        r.tsSec * 1000000000 + r.tsNsec < before) := by
  simp only [inWindow]
  omega

/-- C6 (counterexample): with `before = 604801500000000` ns (604801.5 s)
the code returns the entry at 1 s (`1000000000` ns), although that entry is
older than `before` minus 604800 seconds — the lower bound is computed on
whole seconds, not on the nanosecond timestamp. -/
theorem c6_subsecond_lower_bound :
    ((getLogs (writeLogs ⟨[]⟩ [("old", 1000000000)])
        (some 604801500000000) none none 0).map fun o => o.log) = ["old"] ∧
      1000000000 < 604801500000000 - 604800 * 1000000000 := by
  constructor
  · rfl
  · decide

/-- C6 (amended): without `search`, `GetLogs` returns exactly the entries
in the window whose upper bound is `before` (nanosecond-precise, strict)
and whose lower bound is `floor(before/1e9) − 604800` whole seconds — so
up to the sub-second remainder of `before` wider than `before` minus
604800 seconds — ordered by seconds then sub-second remainder descending,
bounded by the limit (default 100; a limit of 0 is treated as the
default), each entry's `highlighted_log` equal to the raw log text. -/
theorem c6_window_order_highlight (s : LogsState) (before : Nat)
    (limit : Option Nat)
    (hn : ∀ r ∈ s.rows, r.tsNsec < 1000000000)
    (hcount : (s.rows.filter fun r =>
        before / 1000000000 ≤ 604800 + r.tsSec ∧
          r.tsSec * 1000000000 + r.tsNsec < before).length ≤
        effLimit limit) :
    (((getLogs s (some before) none limit 0).map fun o =>
        (o.log, o.tsSec, o.tsNsec)).Perm
      ((s.rows.filter fun r =>
        before / 1000000000 ≤ 604800 + r.tsSec ∧
          r.tsSec * 1000000000 + r.tsNsec < before).map fun r =>
            (r.log, r.tsSec, r.tsNsec))) ∧
      List.Pairwise (fun a b : LogOut =>
          b.tsSec < a.tsSec ∨ (b.tsSec = a.tsSec ∧ b.tsNsec ≤ a.tsNsec))
        (getLogs s (some before) none limit 0) ∧
      ∀ o ∈ getLogs s (some before) none limit 0, o.highlightedLog = o.log := by
  have hfc : s.rows.filter (fun r =>
      inWindow ((before / 1000000000 : Nat) : Int)
        ((before % 1000000000 : Nat) : Int) r) =
      s.rows.filter (fun r =>
        before / 1000000000 ≤ 604800 + r.tsSec ∧
          r.tsSec * 1000000000 + r.tsNsec < before) := by
    apply List.filter_congr
    intro r hr
    rw [decide_eq_decide]
    exact inWindow_iff before r (hn r hr)
  have hout : getLogs s (some before) none limit 0 =
      ((sortOrd tsDescLe (s.rows.filter fun r =>
        before / 1000000000 ≤ 604800 + r.tsSec ∧
          r.tsSec * 1000000000 + r.tsNsec < before)).take
        (effLimit limit)).map
        fun r => ⟨r.log, r.tsSec, r.tsNsec, r.log⟩ := by
    simp only [getLogs]
    rw [hfc]
  have hlen : (sortOrd tsDescLe (s.rows.filter fun r =>
      before / 1000000000 ≤ 604800 + r.tsSec ∧
        r.tsSec * 1000000000 + r.tsNsec < before)).length =
      (s.rows.filter fun r =>
        before / 1000000000 ≤ 604800 + r.tsSec ∧
          r.tsSec * 1000000000 + r.tsNsec < before).length :=
    (sortOrd_perm _ _).length_eq
  have htake : (sortOrd tsDescLe (s.rows.filter fun r =>
      before / 1000000000 ≤ 604800 + r.tsSec ∧
        r.tsSec * 1000000000 + r.tsNsec < before)).take
      (effLimit limit) =
      sortOrd tsDescLe (s.rows.filter fun r =>
        before / 1000000000 ≤ 604800 + r.tsSec ∧
          r.tsSec * 1000000000 + r.tsNsec < before) := by
    apply List.take_of_length_le
    omega
  refine ⟨?_, ?_, ?_⟩
  · rw [hout, htake, List.map_map]
    exact (sortOrd_perm tsDescLe _).map fun r => (r.log, r.tsSec, r.tsNsec)
  · rw [hout, htake]
    have hpw := sortOrd_pairwise tsDescLe tsDescLe_total tsDescLe_trans
      (s.rows.filter fun r =>
        before / 1000000000 ≤ 604800 + r.tsSec ∧
          r.tsSec * 1000000000 + r.tsNsec < before)
    rw [List.pairwise_map]
    refine hpw.imp ?_
    intro a b hab
    simp only [tsDescLe, Bool.or_eq_true, Bool.and_eq_true,
      decide_eq_true_eq] at hab
    exact hab
  · intro o ho
    rw [hout] at ho
    rw [List.mem_map] at ho
    obtain ⟨r, _, rfl⟩ := ho
    rfl

/-- C6 (witness): entries 3, 6, 8 and 10 days before "now"; `GetLogs({})`
— no `before`, upper bound from the clock at 864000000 ms = 10 days —
returns only the 3- and 6-day entries, newest first (86400 seconds per
day). -/
theorem c6_window_order_highlight_witness :
    getLogs (writeLogs ⟨[]⟩
        [("ten", 0), ("eight", 172800000000000), ("six", 345600000000000),
          ("three", 604800000000000)])
        none none none 864000000 =
      getLogs (writeLogs ⟨[]⟩
        [("ten", 0), ("eight", 172800000000000), ("six", 345600000000000),
          ("three", 604800000000000)])
        (some 864000000000000) none none 0 ∧
    ((getLogs (writeLogs ⟨[]⟩
        [("ten", 0), ("eight", 172800000000000), ("six", 345600000000000),
          ("three", 604800000000000)])
        (some 864000000000000) none none 0).map fun o => o.log) =
        ["three", "six"] ∧
      (((getLogs (writeLogs ⟨[]⟩
          [("ten", 0), ("eight", 172800000000000), ("six", 345600000000000),
            ("three", 604800000000000)])
          (some 864000000000000) none none 0).map fun o =>
            (o.log, o.tsSec, o.tsNsec)).Perm
        (((writeLogs ⟨[]⟩
          [("ten", 0), ("eight", 172800000000000), ("six", 345600000000000),
            ("three", 604800000000000)]).rows.filter fun r =>
              864000000000000 / 1000000000 ≤ 604800 + r.tsSec ∧
                r.tsSec * 1000000000 + r.tsNsec < 864000000000000).map fun r =>
                  (r.log, r.tsSec, r.tsNsec))) :=
  ⟨by rfl, by rfl,
   (c6_window_order_highlight (writeLogs ⟨[]⟩
      [("ten", 0), ("eight", 172800000000000), ("six", 345600000000000),
        ("three", 604800000000000)])
      864000000000000 none (by decide) (by decide)).1⟩

theorem mergeSpansAux_ne_nil :
    ∀ (rest : List Nat) (L s e : Nat), mergeSpansAux L s e rest ≠ [] := by
  intro rest
  induction rest with
  | nil => intro L s e; simp [mergeSpansAux]
  | cons i rest ih =>
    intro L s e
    simp only [mergeSpansAux]
    split
    · exact ih L s (max e (i + L))
    · simp

/-- A nonempty span list always renders at least one `<mark>` marker. -/
theorem applyMarks_mark_infix (spans : List (Nat × Nat)) (text : List Char)
    (pos : Nat) (hne : spans ≠ []) :
    "<mark>".data.IsInfix (applyMarks text pos spans) := by
  cases spans with
  | nil => exact absurd rfl hne
  | cons sp rest =>
    obtain ⟨s, e⟩ := sp
    refine ⟨(text.drop pos).take (s - pos),
      ((text.drop s).take (e - s)) ++ "</mark>".data ++ applyMarks text e rest,
      ?_⟩
    simp [applyMarks, List.append_assoc]

/-- A matching row's `highlight` output contains a `<mark>` marker. -/
theorem highlight_contains_mark (q text : String) (h3 : 3 ≤ q.length)
    (hinf : (foldAscii q.data).IsInfix (foldAscii text.data)) :
    "<mark>".data.IsInfix (highlight q text).data := by
  obtain ⟨u, v, huv⟩ := hinf
  have hqlen : 1 ≤ (foldAscii q.data).length := by
    have : q.data.length = q.length := rfl
    simp only [foldAscii, List.length_map, this]
    omega
  have hocc : u.length ∈ occStarts (foldAscii q.data) (foldAscii text.data) := by
    rw [occStarts, List.mem_filter]
    constructor
    · rw [List.mem_range, ← huv]
      simp only [List.length_append]
      omega
    · rw [← huv, List.append_assoc, List.drop_left]
      exact List.isPrefixOf_iff_prefix.mpr (List.prefix_append _ _)
  have hoccne : occStarts (foldAscii q.data) (foldAscii text.data) ≠ [] := by
    intro h
    rw [h] at hocc
    exact List.not_mem_nil _ hocc
  rcases hoc : occStarts (foldAscii q.data) (foldAscii text.data) with _ | ⟨i, rest⟩
  · exact absurd hoc hoccne
  · show "<mark>".data.IsInfix
      (applyMarks text.data 0 (mergeSpans (foldAscii q.data).length
        (occStarts (foldAscii q.data) (foldAscii text.data))))
    rw [hoc]
    simp only [mergeSpans]
    exact applyMarks_mark_infix _ _ _
      (mergeSpansAux_ne_nil rest (foldAscii q.data).length i
        (i + (foldAscii q.data).length))

/-- C7: with a plain, nonempty search string (alphanumeric, so it is a
single FTS5 string token with no query operators), `GetLogs` matches via
the trigram index — a row matches exactly when the case-folded search string of
length ≥ 3 occurs as a substring of the case-folded log text (so mid-word
substrings match) — returns exactly the matching in-window rows, and each
returned entry's `highlighted_log` is the `highlight` rendering of its log,
which wraps every (merged) matched span in `<mark>...</mark>`. -/
theorem c7_search_trigram_substring (s : LogsState) (before : Nat)
    (q : String) (limit : Option Nat) (hq : q ≠ "")
    (_hplain : ∀ c ∈ q.data, c.isAlphanum)
    (hn : ∀ r ∈ s.rows, r.tsNsec < 1000000000)
    (hcount : (s.rows.filter fun r =>
        ftsMatch q r.log ∧
          (before / 1000000000 ≤ 604800 + r.tsSec ∧
            r.tsSec * 1000000000 + r.tsNsec < before)).length ≤
        effLimit limit) :
    (((getLogs s (some before) (some q) limit 0).map fun o =>
        (o.log, o.tsSec, o.tsNsec)).Perm
      ((s.rows.filter fun r =>
        ftsMatch q r.log ∧
          (before / 1000000000 ≤ 604800 + r.tsSec ∧
            r.tsSec * 1000000000 + r.tsNsec < before)).map fun r =>
              (r.log, r.tsSec, r.tsNsec))) ∧
      (∀ o ∈ getLogs s (some before) (some q) limit 0,
        o.highlightedLog = highlight q o.log) ∧
      (∀ o ∈ getLogs s (some before) (some q) limit 0,
        "<mark>".data.IsInfix o.highlightedLog.data) := by
  have hfc : s.rows.filter (fun r =>
      ftsMatch q r.log ∧
        inWindow ((before / 1000000000 : Nat) : Int)
          ((before % 1000000000 : Nat) : Int) r) =
      s.rows.filter (fun r =>
        ftsMatch q r.log ∧
          (before / 1000000000 ≤ 604800 + r.tsSec ∧
            r.tsSec * 1000000000 + r.tsNsec < before)) := by
    apply List.filter_congr
    intro r hr
    rw [decide_eq_decide]
    exact and_congr_right fun _ => inWindow_iff before r (hn r hr)
  have hout : getLogs s (some before) (some q) limit 0 =
      ((sortOrd tsDescLe (s.rows.filter fun r =>
        ftsMatch q r.log ∧
          (before / 1000000000 ≤ 604800 + r.tsSec ∧
            r.tsSec * 1000000000 + r.tsNsec < before))).take
        (effLimit limit)).map
        fun r => ⟨r.log, r.tsSec, r.tsNsec, highlight q r.log⟩ := by
    simp only [getLogs]
    rw [if_pos hq, hfc]
  have htake : (sortOrd tsDescLe (s.rows.filter fun r =>
      ftsMatch q r.log ∧
        (before / 1000000000 ≤ 604800 + r.tsSec ∧
          r.tsSec * 1000000000 + r.tsNsec < before))).take
      (effLimit limit) =
      sortOrd tsDescLe (s.rows.filter fun r =>
        ftsMatch q r.log ∧
          (before / 1000000000 ≤ 604800 + r.tsSec ∧
            r.tsSec * 1000000000 + r.tsNsec < before)) := by
    apply List.take_of_length_le
    rw [(sortOrd_perm _ _).length_eq]
    exact hcount
  refine ⟨?_, ?_, ?_⟩
  · rw [hout, htake, List.map_map]
    exact (sortOrd_perm tsDescLe _).map fun r => (r.log, r.tsSec, r.tsNsec)
  · intro o ho
    rw [hout, List.mem_map] at ho
    obtain ⟨r, _, rfl⟩ := ho
    rfl
  · intro o ho
    rw [hout, htake, List.mem_map] at ho
    obtain ⟨r, hrmem, rfl⟩ := ho
    rw [mem_sortOrd, List.mem_filter] at hrmem
    have hmatch := hrmem.2
    simp only [decide_eq_true_eq] at hmatch
    exact highlight_contains_mark q r.log hmatch.1.1 hmatch.1.2

/-- C7 (witness): entries `"Error: x"`, `"terror"`, `"fine"`;
`GetLogs(search = "rror")` returns exactly the first two (newest first),
each with the matched span wrapped in `<mark>...</mark>`. -/
theorem c7_search_trigram_substring_witness :
    ((getLogs (writeLogs ⟨[]⟩
        [("Error: x", 1000000000), ("terror", 2000000000),
          ("fine", 3000000000)])
        (some 604800000000000) (some "rror") none 0).map fun o => o.log) =
        ["terror", "Error: x"] ∧
      ((getLogs (writeLogs ⟨[]⟩
        [("Error: x", 1000000000), ("terror", 2000000000),
          ("fine", 3000000000)])
        (some 604800000000000) (some "rror") none 0).map fun o =>
          o.highlightedLog) =
        ["te<mark>rror</mark>", "E<mark>rror</mark>: x"] ∧
      ∀ o ∈ getLogs (writeLogs ⟨[]⟩
          [("Error: x", 1000000000), ("terror", 2000000000),
            ("fine", 3000000000)])
          (some 604800000000000) (some "rror") none 0,
        o.highlightedLog = highlight "rror" o.log :=
  ⟨by rfl, by rfl,
   (c7_search_trigram_substring (writeLogs ⟨[]⟩
      [("Error: x", 1000000000), ("terror", 2000000000),
        ("fine", 3000000000)])
      604800000000000 "rror" none (by decide) (by decide) (by decide)
      (by decide)).2.1⟩

end CC.Logs

namespace CC.Computers

/-- C8 (counterexample): the code keeps underscores (JavaScript `\w`
includes `_`), while the claimed derivation — stripping every character
that is not alphanumeric, space or hyphen — would drop them: creating a
tenant named `"a_b"` yields the slug `a_b`, not the claimed `ab`. -/
theorem c8_underscore_kept :
    (createComputer ⟨[]⟩ "a_b" "secret" 0).1.slug = some "a_b" ∧
      slugSpec "a_b" = "ab" ∧
      generateSlug "a_b" ≠ slugSpec "a_b" := by
  refine ⟨rfl, rfl, ?_⟩
  decide

/-- The retry loop finds the first free attempt: the result is below the
attempt budget, its slug is free, and every earlier slug is taken. -/
theorem firstFreeAttempt_spec (s : ComputersState) (baseSlug : String) :
    ∀ n a0 a, firstFreeAttempt s baseSlug n a0 = some a →
      a0 ≤ a ∧ a < a0 + n ∧ slugTaken s (attemptSlug baseSlug a) = false ∧
        ∀ b, a0 ≤ b → b < a → slugTaken s (attemptSlug baseSlug b) = true := by
  intro n
  induction n with
  | zero =>
    intro a0 a h
    simp [firstFreeAttempt] at h
  | succ n ih =>
    intro a0 a h
    simp only [firstFreeAttempt] at h
    split at h
    · rename_i htaken
      obtain ⟨h1, h2, h3, h4⟩ := ih (a0 + 1) a h
      refine ⟨by omega, by omega, h3, ?_⟩
      intro b hb1 hb2
      by_cases hb0 : b = a0
      · subst hb0; exact htaken
      · exact h4 b (by omega) hb2
    · rename_i hfree
      injection h with h
      subst h
      refine ⟨le_refl _, by omega, ?_, ?_⟩
      · simpa using hfree
      · intro b hb1 hb2
        omega

/-- If no attempt in the budget is free, the loop reports none. -/
theorem firstFreeAttempt_none (s : ComputersState) (baseSlug : String) :
    ∀ n a0, firstFreeAttempt s baseSlug n a0 = none →
      ∀ b, a0 ≤ b → b < a0 + n → slugTaken s (attemptSlug baseSlug b) = true := by
  intro n
  induction n with
  | zero =>
    intro a0 _ b hb1 hb2
    omega
  | succ n ih =>
    intro a0 h b hb1 hb2
    simp only [firstFreeAttempt] at h
    split at h
    · rename_i htaken
      by_cases hb0 : b = a0
      · subst hb0; exact htaken
      · exact ih (a0 + 1) h b (by omega) (by omega)
    · exact absurd h (by simp)

/-- C8 (amended): `CreateTenant` derives the base slug by lowercasing,
trimming, stripping characters outside `\w`/whitespace/hyphen (so
underscores are kept), collapsing whitespace runs to single hyphens,
collapsing hyphen runs and trimming edge hyphens (`generateSlug`), then
inserts under the first free slug among `base`, `base-1`, …, `base-99`
(100 attempts), failing if all are taken. -/
theorem c8_slug_collision_suffix (s : ComputersState)
    (displayName secret : String) (nowMs : Nat)
    (hname : trimChars displayName.data ≠ [])
    (hbase : generateSlug ⟨trimChars displayName.data⟩ ≠ "") :
    (∀ a, firstFreeAttempt s (generateSlug ⟨trimChars displayName.data⟩)
        100 0 = some a →
      (createComputer s displayName secret nowMs).1 =
          ⟨true, some (attemptSlug
            (generateSlug ⟨trimChars displayName.data⟩) a), none⟩ ∧
        a < 100 ∧
        slugTaken s (attemptSlug
          (generateSlug ⟨trimChars displayName.data⟩) a) = false ∧
        ∀ b, b < a → slugTaken s (attemptSlug
          (generateSlug ⟨trimChars displayName.data⟩) b) = true) ∧
      (firstFreeAttempt s (generateSlug ⟨trimChars displayName.data⟩)
          100 0 = none →
        (createComputer s displayName secret nowMs).1 =
          ⟨false, none,
            some "Could not generate unique slug after multiple attempts"⟩ ∧
        ∀ b, b < 100 → slugTaken s (attemptSlug
          (generateSlug ⟨trimChars displayName.data⟩) b) = true) := by
  constructor
  · intro a hfa
    obtain ⟨h1, h2, h3, h4⟩ := firstFreeAttempt_spec s _ 100 0 a hfa
    refine ⟨?_, by omega, h3, fun b hb => h4 b (by omega) hb⟩
    simp only [createComputer, if_neg (by simpa using hname), if_neg hbase]
    rw [hfa]
  · intro hfa
    refine ⟨?_, fun b hb => firstFreeAttempt_none s _ 100 0 hfa b (by omega)
      (by omega)⟩
    simp only [createComputer, if_neg (by simpa using hname), if_neg hbase]
    rw [hfa]

/-- C8 (witness): two tenants both named `"My Computer"` get the slugs
`my-computer` and `my-computer-1`. -/
theorem c8_slug_collision_suffix_witness :
    (createComputer ⟨[]⟩ "My Computer" "s1" 0).1.slug = some "my-computer" ∧
      (createComputer (createComputer ⟨[]⟩ "My Computer" "s1" 0).2
        "My Computer" "s2" 1).1.slug = some "my-computer-1" := by
  have h1 := (c8_slug_collision_suffix ⟨[]⟩ "My Computer" "s1" 0
    (by decide) (by decide)).1 0 (by decide)
  have h2 := (c8_slug_collision_suffix
    (createComputer ⟨[]⟩ "My Computer" "s1" 0).2 "My Computer" "s2" 1
    (by decide) (by decide)).1 1 (by decide)
  constructor
  · rw [h1.1]
    decide
  · rw [h2.1]
    decide

end CC.Computers

namespace CC.Claims

open CC.Path

/-- C2 (counterexample): contrary to the claim, `validateAndResolve("/../secret")`
does not error: `filepath.Clean` collapses the rooted `..` to `/secret`, the
leading slash is stripped, and the result `/home/cutie/secret` passes the
confinement check. -/
theorem c2_slash_dotdot_secret_resolves :
    validateAndResolvePath "/../secret" = Except.ok "/home/cutie/secret" := by
  rfl

/-- C2 (amended): `validateAndResolve("../../etc/passwd")` errors;
`validateAndResolve("a/b/../c")` resolves to `a/c` under the root; and
`validateAndResolve("/../secret")` resolves (without error) to
`/home/cutie/secret` rather than erroring. -/
theorem c2_validateAndResolve_testable_paths :
    validateAndResolvePath "../../etc/passwd" =
        Except.error "invalid path: must be within /home/cutie" ∧
      validateAndResolvePath "a/b/../c" = Except.ok "/home/cutie/a/c" ∧
      validateAndResolvePath "/../secret" = Except.ok "/home/cutie/secret" := by
  refine ⟨?_, ?_, ?_⟩ <;> rfl

/-- C3: whenever `validateAndResolve` returns a path rather than an error,
that path is the sandbox root `/home/cutie` or strictly inside it: it extends
`/home/cutie/` and, after the leading slash, every path component is nonempty
and is neither `.` nor `..` (so the path cannot denote anything outside the
root). -/
theorem c3_validateAndResolve_confined (s p : String)
    (h : validateAndResolvePath s = Except.ok p) :
    p = "/home/cutie" ∨
      ("/home/cutie/".data <+: p.data ∧
        (splitSlash p.data).head? = some [] ∧
        ∀ comp ∈ (splitSlash p.data).tail, GoodComp comp) := by
  simp only [validateAndResolvePath] at h
  split at h
  · exact absurd h (by simp)
  · rename_i hcond
    have hp : p = ⟨cleanList ("/home/cutie".data ++ '/' ::
        trimPrefixSlash (cleanList s.data))⟩ := by
      injection h with h'
      exact h'.symm
    rcases not_and_or.mp hcond with hpref | hroot
    · right
      have hpref' : "/home/cutie/".data.isPrefixOf
          (cleanList ("/home/cutie".data ++ '/' ::
            trimPrefixSlash (cleanList s.data))) = true := by
        by_contra hne
        exact hpref (by simpa using hne)
      rw [List.isPrefixOf_iff_prefix] at hpref'
      have hq : ("/home/cutie".data ++ '/' ::
          trimPrefixSlash (cleanList s.data)).head? = some '/' := by
        have hd : "/home/cutie".data = '/' :: "home/cutie".data := rfl
        rw [hd]
        rfl
      have hone : cleanList ("/home/cutie".data ++ '/' ::
          trimPrefixSlash (cleanList s.data)) ≠ ['/'] := by
        intro hbad
        rw [hbad] at hpref'
        have := hpref'.length_le
        simp at this
      have hcomp := cleanList_rooted_components _ hq hone
      subst hp
      exact ⟨hpref', hcomp.1, hcomp.2⟩
    · left
      have : cleanList ("/home/cutie".data ++ '/' ::
          trimPrefixSlash (cleanList s.data)) = "/home/cutie".data :=
        not_not.mp hroot
      rw [this] at hp
      exact hp

/-- C3 (witness): a concrete run, resolving `"a"` to `/home/cutie/a`. -/
theorem c3_validateAndResolve_confined_witness :
    validateAndResolvePath "a" = Except.ok "/home/cutie/a" ∧
      ("/home/cutie/a" = "/home/cutie" ∨
        ("/home/cutie/".data <+: "/home/cutie/a".data ∧
          (splitSlash "/home/cutie/a".data).head? = some [] ∧
          ∀ comp ∈ (splitSlash "/home/cutie/a".data).tail, GoodComp comp)) :=
  ⟨by rfl, c3_validateAndResolve_confined "a" "/home/cutie/a" (by rfl)⟩

end CC.Claims
